import Mathlib

/-!
Verification of the `morefs` repository (DictFS in-memory filesystem and
OverlayFileSystem union filesystem) against its natural-language
specification.

The Python sources are shallowly embedded:
* paths are sequences of characters (`Str := List Char`), path
  normalization (`DictFS._strip_protocol`), segment splitting
  (`DictFS.path_parts`) and joining (`DictFS.join_paths`) are translated
  from `src/morefs/dict.py`;
* the hierarchical `Store` (a nested `dict`) becomes an inductive tree of
  association lists; Python's `KeyError`/`TypeError`/`ValueError` become
  explicit error values;
* file objects (`DictFile`, a `BytesIO` subclass) live in an explicit heap
  indexed by allocation order, so that object identity (aliasing of open
  handles) is expressible;
* `OverlayFileSystem` is embedded both over abstract backends (for claims
  quantifying over arbitrary backends) and over `DictFS` backends (for
  claims about mutation of backend state).
-/

set_option maxRecDepth 10000

namespace Morefs

/-- Paths and path segments are sequences of characters (Python `str`). -/
abbrev Str := List Char

/-! ## Path model (`DictFS._strip_protocol`, `path_parts`, `join_paths`) -/

/-- The protocol prefix `"dictfs://"` stripped by `_strip_protocol`. -/
def protoPre : Str := "dictfs://".data

/-- `a.isPre b` iff `a` is a leading segment of `b` (Python `str.startswith`). -/
def isPre : Str → Str → Bool
  | [], _ => true
  | _ :: _, [] => false
  | a :: as, b :: bs => decide (a = b) && isPre as bs

/-- Does the string contain the two-character substring `a,b`
(Python `"xy" in path`)? -/
def hasPair (a b : Char) : Str → Bool
  | x :: y :: r => (decide (x = a) && decide (y = b)) || hasPair a b (y :: r)
  | _ => false

/-- Does the string contain the three-character substring `a,b,c`
(Python `"xyz" in path`)? -/
def hasTriple (a b c : Char) : Str → Bool
  | x :: y :: z :: r =>
      (decide (x = a) && decide (y = b) && decide (z = c)) || hasTriple a b c (y :: z :: r)
  | _ => false

/-- Python `path.lstrip("/")`: drop leading slashes. -/
def dropSlashes : Str → Str
  | [] => []
  | c :: cs => if c = '/' then dropSlashes cs else c :: cs

/-- Python `path.rstrip("/")`: drop trailing slashes. -/
def dropSlashesR (s : Str) : Str := (dropSlashes s.reverse).reverse

/-- `DictFS.root_marker = ""`. -/
def rootMarker : Str := []

/-- `DictFS._strip_protocol` from `dict.py`:
strip a `dictfs://` prefix; if an embedded scheme delimiter (`::` or `://`)
remains, only trim trailing slashes; otherwise strip leading and trailing
slashes and re-prepend a single `/` unless the result is empty. -/
def strip_protocol (s : Str) : Str :=
  let s1 := if isPre protoPre s then s.drop protoPre.length else s
  if hasPair ':' ':' s1 || hasTriple ':' '/' '/' s1 then dropSlashesR s1
  else
    let t := dropSlashesR (dropSlashes s1)
    if t = [] then rootMarker else '/' :: t

/-- Python `path.split("/")` for the one-character separator:
always returns at least one (possibly empty) group. -/
def splitSep : Str → List Str
  | [] => [[]]
  | c :: cs =>
    match splitSep cs with
    | [] => [[]]
    | g :: gs => if c = '/' then [] :: g :: gs else (c :: g) :: gs

/-- Python `"/".join(groups)`. -/
def intercalateSep : List Str → Str
  | [] => []
  | [s] => s
  | s :: rest => s ++ '/' :: intercalateSep rest

/-- `DictFS.path_parts`: normalize, then split on `/` dropping the leading
root marker group. -/
def path_parts (p : Str) : List Str :=
  let q := strip_protocol p
  if q = "/".data then []
  else
    match splitSep q with
    | [] => []
    | _ :: parts => parts

/-- `DictFS.join_paths`: `sep.join([root_marker, *paths])` for non-empty
segment lists, the root marker (empty string) otherwise. -/
def join_paths (ps : List Str) : Str :=
  if ps = [] then rootMarker else intercalateSep ([] :: ps)

/-- A valid segment: non-empty and free of the separator. -/
def validSeg (g : Str) : Prop := g ≠ [] ∧ '/' ∉ g

instance (g : Str) : Decidable (validSeg g) := by
  unfold validSeg
  infer_instance

/-! ### Lemmas about the path model -/

theorem splitSep_ne_nil (s : Str) : splitSep s ≠ [] := by
  induction s with
  | nil => simp [splitSep]
  | cons c cs ih =>
    simp only [splitSep]
    cases h : splitSep cs with
    | nil => simp
    | cons g gs => by_cases hc : c = '/' <;> simp [hc]

theorem splitSep_noslash (g : Str) (h : '/' ∉ g) : splitSep g = [g] := by
  induction g with
  | nil => rfl
  | cons c cs ih =>
    have hc : c ≠ '/' := fun e => h (by simp [e])
    have hcs : '/' ∉ cs := fun e => h (by simp [e])
    simp only [splitSep, ih hcs]
    simp [hc]

theorem splitSep_append (g r : Str) (h : '/' ∉ g) :
    splitSep (g ++ '/' :: r) = g :: splitSep r := by
  induction g with
  | nil =>
    simp only [List.nil_append, splitSep]
    cases hr : splitSep r with
    | nil => exact absurd hr (splitSep_ne_nil r)
    | cons x xs => simp
  | cons c cs ih =>
    have hc : c ≠ '/' := fun e => h (by simp [e])
    have hcs : '/' ∉ cs := fun e => h (by simp [e])
    show splitSep (c :: (cs ++ '/' :: r)) = (c :: cs) :: splitSep r
    simp only [splitSep]
    rw [ih hcs]
    simp [hc]

theorem splitSep_intercalate (S : List Str) (hS : S ≠ [])
    (h : ∀ g ∈ S, '/' ∉ g) : splitSep (intercalateSep S) = S := by
  induction S with
  | nil => exact absurd rfl hS
  | cons g S' ih =>
    cases S' with
    | nil => exact splitSep_noslash g (h g (by simp))
    | cons g' rest =>
      have : intercalateSep (g :: g' :: rest) = g ++ '/' :: intercalateSep (g' :: rest) := rfl
      rw [this, splitSep_append g _ (h g (by simp)),
        ih (by simp) (fun x hx => h x (List.mem_cons_of_mem _ hx))]

theorem dropSlashes_noslash_head (g r : Str) (hg : g ≠ []) (h : '/' ∉ g) :
    dropSlashes (g ++ r) = g ++ r := by
  cases g with
  | nil => exact absurd rfl hg
  | cons c cs =>
    have hc : c ≠ '/' := fun e => h (by simp [e])
    simp [dropSlashes, hc]

theorem dropSlashes_append (x y : Str) :
    dropSlashes (x ++ y) =
      if dropSlashes x = [] then dropSlashes y else dropSlashes x ++ y := by
  induction x with
  | nil => simp [dropSlashes]
  | cons c cs ih =>
    by_cases hc : c = '/'
    · simp [dropSlashes, hc, ih]
    · simp [dropSlashes, hc]

theorem dropSlashesR_cons (c : Char) (cs : Str) (hc : c ≠ '/') :
    dropSlashesR (c :: cs) = c :: dropSlashesR cs := by
  unfold dropSlashesR
  rw [List.reverse_cons, dropSlashes_append]
  by_cases h : dropSlashes cs.reverse = []
  · simp [h, dropSlashes, hc]
  · simp [h]

theorem dropSlashesR_append_noslash (s t : Str) (ht : t ≠ []) (h : '/' ∉ t) :
    dropSlashesR (s ++ t) = s ++ t := by
  unfold dropSlashesR
  rw [List.reverse_append]
  cases hrev : t.reverse with
  | nil => exact absurd (List.reverse_eq_nil_iff.mp hrev) ht
  | cons c cs =>
    have hmem : '/' ∉ (c :: cs : Str) := by
      intro hm
      have h2 : '/' ∈ t := by
        have h3 : '/' ∈ t.reverse := by rw [hrev]; exact hm
        simpa using h3
      exact h h2
    rw [dropSlashes_noslash_head (c :: cs) s.reverse (by simp) hmem, ← hrev]
    simp

/-- The tail of a `dropSlashes` result: empty or starting with a non-slash. -/
theorem dropSlashes_head (s : Str) :
    dropSlashes s = [] ∨ ∃ c cs, dropSlashes s = c :: cs ∧ c ≠ '/' := by
  induction s with
  | nil => exact Or.inl rfl
  | cons c cs ih =>
    by_cases hc : c = '/'
    · simpa [dropSlashes, hc] using ih
    · exact Or.inr ⟨c, cs, by simp [dropSlashes, hc], hc⟩

theorem dropSlashes_idem (s : Str) : dropSlashes (dropSlashes s) = dropSlashes s := by
  rcases dropSlashes_head s with h | ⟨c, cs, h, hc⟩
  · simp [h, dropSlashes]
  · simp [h, dropSlashes, hc]

theorem dropSlashesR_idem (s : Str) : dropSlashesR (dropSlashesR s) = dropSlashesR s := by
  unfold dropSlashesR
  rw [List.reverse_reverse, dropSlashes_idem]

/-- `dropSlashes` yields a suffix of its argument. -/
theorem dropSlashes_suffix (s : Str) : ∃ u, s = u ++ dropSlashes s := by
  induction s with
  | nil => exact ⟨[], rfl⟩
  | cons c cs ih =>
    by_cases hc : c = '/'
    · obtain ⟨u, hu⟩ := ih
      exact ⟨c :: u, by simp [dropSlashes, hc, ← hu]⟩
    · exact ⟨[], by simp [dropSlashes, hc]⟩

/-- `dropSlashesR` yields a leading part of its argument. -/
theorem dropSlashesR_pre (s : Str) : ∃ u, s = dropSlashesR s ++ u := by
  obtain ⟨u, hu⟩ := dropSlashes_suffix s.reverse
  refine ⟨u.reverse, ?_⟩
  unfold dropSlashesR
  calc s = s.reverse.reverse := by simp
    _ = (u ++ dropSlashes s.reverse).reverse := by rw [← hu]
    _ = (dropSlashes s.reverse).reverse ++ u.reverse := by simp


theorem intercalate_concat (T : List Str) (g : Str) :
    intercalateSep (T ++ [g]) =
      if T = [] then g else intercalateSep T ++ '/' :: g := by
  induction T with
  | nil => rfl
  | cons a T' ih =>
    cases T' with
    | nil => simp [intercalateSep]
    | cons b T'' =>
      show intercalateSep (a :: (b :: T'' ++ [g])) = _
      have h1 : intercalateSep (a :: (b :: T'' ++ [g])) =
          a ++ '/' :: intercalateSep (b :: T'' ++ [g]) := by
        cases T'' <;> rfl
      have ih' : intercalateSep (b :: T'' ++ [g]) =
          intercalateSep (b :: T'') ++ '/' :: g := by
        rw [ih]; simp
      have h2 : intercalateSep (a :: b :: T'') = a ++ '/' :: intercalateSep (b :: T'') := rfl
      rw [h1, ih', if_neg (by simp), h2]
      simp

/-- Any non-empty valid segment list splits off a leading segment. -/
theorem intercalate_head_decomp (g : Str) (S' : List Str) :
    ∃ rest, intercalateSep (g :: S') = g ++ rest := by
  cases S' with
  | nil => exact ⟨[], by simp [intercalateSep]⟩
  | cons b T => exact ⟨'/' :: intercalateSep (b :: T), rfl⟩

theorem intercalate_ne_nil (g : Str) (S' : List Str) (hg : g ≠ []) :
    intercalateSep (g :: S') ≠ [] := by
  obtain ⟨rest, hrest⟩ := intercalate_head_decomp g S'
  rw [hrest]
  simp [hg]

theorem dropSlashesR_intercalate (S : List Str) (hS : S ≠ [])
    (h : ∀ g ∈ S, validSeg g) :
    dropSlashesR (intercalateSep S) = intercalateSep S := by
  induction S using List.reverseRecOn with
  | nil => exact absurd rfl hS
  | append_singleton T g _ =>
    obtain ⟨hg1, hg2⟩ := h g (by simp)
    rw [intercalate_concat]
    by_cases hT : T = []
    · simp only [hT, if_pos rfl]
      exact dropSlashesR_append_noslash [] g hg1 hg2
    · simp only [if_neg hT]
      have heq : intercalateSep T ++ '/' :: g = (intercalateSep T ++ ['/']) ++ g := by simp
      rw [heq]
      exact dropSlashesR_append_noslash _ g hg1 hg2

theorem dropSlashesR_slash_intercalate (S : List Str) (hS : S ≠ [])
    (h : ∀ g ∈ S, validSeg g) :
    dropSlashesR ('/' :: intercalateSep S) = '/' :: intercalateSep S := by
  induction S using List.reverseRecOn with
  | nil => exact absurd rfl hS
  | append_singleton T g _ =>
    obtain ⟨hg1, hg2⟩ := h g (by simp)
    rw [intercalate_concat]
    by_cases hT : T = []
    · simp only [hT, if_pos rfl]
      exact dropSlashesR_append_noslash ['/'] g hg1 hg2
    · simp only [if_neg hT]
      have heq : ('/' :: (intercalateSep T ++ '/' :: g) : Str) =
          ('/' :: (intercalateSep T ++ ['/'])) ++ g := by simp
      rw [heq]
      exact dropSlashesR_append_noslash _ g hg1 hg2

theorem isPre_proto_slash (x : Str) : isPre protoPre ('/' :: x) = false := by
  have h : protoPre = 'd' :: "ictfs://".data := by decide
  rw [h]
  simp [isPre]

/-- For non-empty segment lists, `join_paths` is a slash followed by the
interleaving of the segments. -/
theorem join_paths_cons (g : Str) (S : List Str) :
    join_paths (g :: S) = '/' :: intercalateSep (g :: S) := by
  unfold join_paths
  rw [if_neg (by simp)]
  cases S <;> rfl

/-- Evaluation of `_strip_protocol` on inputs with no protocol prefix and
no embedded scheme delimiter. -/
theorem strip_eval_clean (p : Str) (h1 : isPre protoPre p = false)
    (h2 : hasPair ':' ':' p = false) (h3 : hasTriple ':' '/' '/' p = false) :
    strip_protocol p =
      (if dropSlashesR (dropSlashes p) = [] then []
        else '/' :: dropSlashesR (dropSlashes p)) := by
  unfold strip_protocol
  simp [h1, h2, h3, rootMarker]

/-- Evaluation of `_strip_protocol` on inputs with no protocol prefix but
containing an embedded scheme delimiter (the opaque-passthrough branch). -/
theorem strip_eval_delim (p : Str) (h1 : isPre protoPre p = false)
    (hd : (hasPair ':' ':' p || hasTriple ':' '/' '/' p) = true) :
    strip_protocol p = dropSlashesR p := by
  unfold strip_protocol
  simp only [h1, Bool.false_eq_true, if_false, hd, if_true]

theorem strip_join (S : List Str) (h : ∀ g ∈ S, validSeg g) :
    strip_protocol (join_paths S) = join_paths S := by
  cases S with
  | nil => decide
  | cons g S' =>
    rw [join_paths_cons]
    obtain ⟨hg1, hg2⟩ := h g (by simp)
    have hne : intercalateSep (g :: S') ≠ [] := intercalate_ne_nil g S' hg1
    by_cases hdelim :
        (hasPair ':' ':' ('/' :: intercalateSep (g :: S')) ||
          hasTriple ':' '/' '/' ('/' :: intercalateSep (g :: S'))) = true
    · rw [strip_eval_delim _ (isPre_proto_slash _) hdelim]
      exact dropSlashesR_slash_intercalate _ (by simp) h
    · have hboth := Bool.or_eq_false_iff.mp (Bool.eq_false_iff.mpr hdelim)
      rw [strip_eval_clean _ (isPre_proto_slash _) hboth.1 hboth.2]
      have hhead : dropSlashes ('/' :: intercalateSep (g :: S')) =
          intercalateSep (g :: S') := by
        have hstep : dropSlashes ('/' :: intercalateSep (g :: S')) =
            dropSlashes (intercalateSep (g :: S')) := by simp [dropSlashes]
        obtain ⟨rest, hrest⟩ := intercalate_head_decomp g S'
        rw [hstep, hrest]
        exact dropSlashes_noslash_head g rest hg1 hg2
      rw [hhead, dropSlashesR_intercalate _ (by simp) h, if_neg hne]

theorem parts_join (S : List Str) (h : ∀ g ∈ S, validSeg g) :
    path_parts (join_paths S) = S := by
  cases S with
  | nil => decide
  | cons g S' =>
    unfold path_parts
    rw [strip_join _ h, join_paths_cons]
    obtain ⟨hg1, hg2⟩ := h g (by simp)
    have hne : intercalateSep (g :: S') ≠ [] := intercalate_ne_nil g S' hg1
    rw [if_neg ?_]
    · have hsplit : splitSep ('/' :: intercalateSep (g :: S')) = [] :: g :: S' := by
        have h1 : ('/' :: intercalateSep (g :: S') : Str) =
            intercalateSep ([] :: g :: S') := rfl
        rw [h1]
        exact splitSep_intercalate _ (by simp)
          (by intro x hx
              rcases List.mem_cons.mp hx with h' | h'
              · subst h'; simp
              · exact (h x h').2)
      rw [hsplit]
    · intro hcontra
      have h2 : intercalateSep (g :: S') = [] := by
        have h3 : ('/' :: intercalateSep (g :: S') : Str) = ['/'] := hcontra
        simpa using h3
      exact hne h2

/-! ### Transfer lemmas for the delimiter tests -/

theorem hasPair_tail (a b c : Char) (s : Str) (h : hasPair a b (c :: s) = false) :
    hasPair a b s = false := by
  cases s with
  | nil => rfl
  | cons y r =>
    have h' := h
    simp only [hasPair, Bool.or_eq_false_iff] at h'
    exact h'.2

theorem hasPair_append_left (a b : Char) (x y : Str)
    (h : hasPair a b (x ++ y) = false) : hasPair a b x = false := by
  induction x with
  | nil => rfl
  | cons c x' ih =>
    cases x' with
    | nil => rfl
    | cons d x2 =>
      have h1 : hasPair a b (c :: d :: (x2 ++ y)) = false := h
      simp only [hasPair, Bool.or_eq_false_iff] at h1
      have h2 := ih h1.2
      simp only [hasPair, Bool.or_eq_false_iff]
      exact ⟨h1.1, h2⟩

theorem hasPair_append_right (a b : Char) (x y : Str)
    (h : hasPair a b (x ++ y) = false) : hasPair a b y = false := by
  induction x with
  | nil => exact h
  | cons c x' ih => exact ih (hasPair_tail a b c _ h)

theorem hasTriple_tail (a b c d : Char) (s : Str)
    (h : hasTriple a b c (d :: s) = false) : hasTriple a b c s = false := by
  cases s with
  | nil => rfl
  | cons y r =>
    cases r with
    | nil => rfl
    | cons z r' =>
      have h' := h
      simp only [hasTriple, Bool.or_eq_false_iff] at h'
      exact h'.2

theorem hasTriple_append_left (a b c : Char) (x y : Str)
    (h : hasTriple a b c (x ++ y) = false) : hasTriple a b c x = false := by
  induction x with
  | nil => rfl
  | cons d x' ih =>
    cases x' with
    | nil => rfl
    | cons e x2 =>
      cases x2 with
      | nil => rfl
      | cons f x3 =>
        have h1 : hasTriple a b c (d :: e :: f :: (x3 ++ y)) = false := h
        simp only [hasTriple, Bool.or_eq_false_iff] at h1
        have h2 := ih h1.2
        simp only [hasTriple, Bool.or_eq_false_iff]
        exact ⟨h1.1, h2⟩

theorem hasTriple_append_right (a b c : Char) (x y : Str)
    (h : hasTriple a b c (x ++ y) = false) : hasTriple a b c y = false := by
  induction x with
  | nil => exact h
  | cons d x' ih => exact ih (hasTriple_tail a b c d _ h)

theorem hasPair_cons_ne (a b d : Char) (t : Str) (hd : d ≠ a) :
    hasPair a b (d :: t) = hasPair a b t := by
  cases t with
  | nil => rfl
  | cons y r => simp [hasPair, hd]

theorem hasTriple_cons_ne (a b c d : Char) (t : Str) (hd : d ≠ a) :
    hasTriple a b c (d :: t) = hasTriple a b c t := by
  cases t with
  | nil => rfl
  | cons y r =>
    cases r with
    | nil => rfl
    | cons z r' => simp [hasTriple, hd]

/-- Idempotence of `_strip_protocol` on inputs free of a protocol prefix
and of embedded scheme delimiters. -/
theorem strip_idem (p : Str) (h1 : isPre protoPre p = false)
    (h2 : hasPair ':' ':' p = false) (h3 : hasTriple ':' '/' '/' p = false) :
    strip_protocol (strip_protocol p) = strip_protocol p := by
  rw [strip_eval_clean p h1 h2 h3]
  by_cases ht : dropSlashesR (dropSlashes p) = []
  · rw [if_pos ht]
    decide
  · rw [if_neg ht]
    obtain ⟨c, t', hct, hc⟩ :
        ∃ c t', dropSlashesR (dropSlashes p) = c :: t' ∧ c ≠ '/' := by
      rcases dropSlashes_head p with hnil | ⟨c, cs, hcs, hc⟩
      · exact absurd (by rw [hnil]; rfl) ht
      · rw [hcs, dropSlashesR_cons c cs hc]
        exact ⟨c, dropSlashesR cs, rfl, hc⟩
    have hpt : hasPair ':' ':' (dropSlashesR (dropSlashes p)) = false := by
      obtain ⟨u, hu⟩ := dropSlashes_suffix p
      have hsuf : hasPair ':' ':' (dropSlashes p) = false :=
        hasPair_append_right _ _ u _ (hu ▸ h2)
      obtain ⟨v, hv⟩ := dropSlashesR_pre (dropSlashes p)
      exact hasPair_append_left _ _ _ v (hv ▸ hsuf)
    have htt : hasTriple ':' '/' '/' (dropSlashesR (dropSlashes p)) = false := by
      obtain ⟨u, hu⟩ := dropSlashes_suffix p
      have hsuf : hasTriple ':' '/' '/' (dropSlashes p) = false :=
        hasTriple_append_right _ _ _ u _ (hu ▸ h3)
      obtain ⟨v, hv⟩ := dropSlashesR_pre (dropSlashes p)
      exact hasTriple_append_left _ _ _ _ v (hv ▸ hsuf)
    rw [strip_eval_clean _ (isPre_proto_slash _)
      (by rw [hasPair_cons_ne ':' ':' '/' _ (by decide)]; exact hpt)
      (by rw [hasTriple_cons_ne ':' '/' '/' '/' _ (by decide)]; exact htt)]
    have hdrop : dropSlashes ('/' :: dropSlashesR (dropSlashes p)) =
        dropSlashesR (dropSlashes p) := by
      rw [hct]
      simp [dropSlashes, hc]
    rw [hdrop, dropSlashesR_idem, if_neg ht]

/-! ## The hierarchical Store (`Store` in `dict.py`)

A `Store` is a Python `dict` mapping names to children, each child either a
nested `dict` (directory) or a `DictFile`.  We embed directories as
insertion-ordered association lists (Python dicts preserve insertion
order; assignment to an existing key keeps its position) and files as heap
identifiers, so that object identity of `DictFile`s is expressible. -/

/-- A Store node: a file (by heap id) or a directory of named children. -/
inductive Node where
  | file (fid : Nat)
  | dir (entries : List (Str × Node))
deriving Repr

/-- The children of a directory node. -/
abbrev Entries := List (Str × Node)

/-- Errors raised by `Store.get`/`Store.delete`: Python `KeyError` and
`TypeError`. -/
inductive GErr where
  | keyErr
  | typeErr
deriving DecidableEq, Repr

/-- Errors raised by `Store.set`: additionally Python `ValueError`. -/
inductive SErr where
  | keyErr
  | typeErr
  | valErr
deriving DecidableEq, Repr

/-- Dictionary lookup `d[k]` (as an option). -/
def lookupE : Entries → Str → Option Node
  | [], _ => none
  | (k, v) :: rest, key => if k = key then some v else lookupE rest key

/-- Dictionary assignment `d[k] = v`: replaces in place, else appends
(Python dicts preserve the position of an existing key). -/
def insertE : Entries → Str → Node → Entries
  | [], k, v => [(k, v)]
  | (k', v') :: rest, k, v =>
      if k' = k then (k, v) :: rest else (k', v') :: insertE rest k v

/-- Dictionary deletion `del d[k]` (the key is known to be present). -/
def removeE : Entries → Str → Entries
  | [], _ => []
  | (k', v') :: rest, k => if k' = k then rest else (k', v') :: removeE rest k

/-- `Store.get(paths)`: walk from the root; `KeyError` when a segment is
missing, `TypeError` when indexing walks into a file. -/
def getNode : Node → List Str → Except GErr Node
  | n, [] => .ok n
  | .file _, _ :: _ => .error .typeErr
  | .dir es, k :: ks =>
    match lookupE es k with
    | none => .error .keyErr
    | some n => getNode n ks

/-- `Store.set(paths, value, overwrite)`: resolve all but the last segment
(`KeyError`/`TypeError` as in `get`), reject an empty path (`ValueError`),
reject an existing final key when `overwrite` is false (`ValueError`),
otherwise insert/replace. -/
def setNodePaths : Entries → List Str → Node → Bool → Except SErr Entries
  | _, [], _, _ => .error .valErr
  | es, [k], v, ow =>
      if ow = false ∧ (lookupE es k).isSome then .error .valErr
      else .ok (insertE es k v)
  | es, r :: rs, v, ow =>
    match lookupE es r with
    | none => .error .keyErr
    | some (.file _) => .error .typeErr
    | some (.dir es') =>
      match setNodePaths es' rs v ow with
      | .ok es'' => .ok (insertE es r (.dir es''))
      | .error e => .error e

/-- `Store.delete(paths)`: an empty path clears the root's children;
otherwise resolve the parent and remove the final key
(`KeyError`/`TypeError` as in `get`/`del`). -/
def delNodePaths : Entries → List Str → Except GErr Entries
  | _, [] => .ok []
  | es, [k] =>
    match lookupE es k with
    | none => .error .keyErr
    | some _ => .ok (removeE es k)
  | es, r :: rs =>
    match lookupE es r with
    | none => .error .keyErr
    | some (.file _) => .error .typeErr
    | some (.dir es') =>
      match delNodePaths es' rs with
      | .ok es'' => .ok (insertE es r (.dir es''))
      | .error e => .error e

/-- `Store.new_child(paths)`: `set` with a fresh empty directory and
`overwrite = false`. -/
def newChild (es : Entries) (paths : List Str) : Except SErr Entries :=
  setNodePaths es paths (.dir []) false

/-! ### Store lemmas -/

theorem lookupE_insertE_self (es : Entries) (k : Str) (v : Node) :
    lookupE (insertE es k v) k = some v := by
  induction es with
  | nil => simp [insertE, lookupE]
  | cons kv rest ih =>
    obtain ⟨k', v'⟩ := kv
    by_cases h : k' = k
    · simp [insertE, h, lookupE]
    · simp [insertE, h, lookupE, ih]

theorem lookupE_insertE_ne (es : Entries) (k k' : Str) (v : Node) (h : k ≠ k') :
    lookupE (insertE es k v) k' = lookupE es k' := by
  induction es with
  | nil => simp [insertE, lookupE, h]
  | cons kv rest ih =>
    obtain ⟨k0, v0⟩ := kv
    by_cases h0 : k0 = k
    · subst h0
      simp [insertE, lookupE, h]
    · simp [insertE, h0, lookupE, ih]

theorem insertE_insertE_self (es : Entries) (k : Str) (v w : Node) :
    insertE (insertE es k v) k w = insertE es k w := by
  induction es with
  | nil => simp [insertE]
  | cons kv rest ih =>
    obtain ⟨k0, v0⟩ := kv
    by_cases h0 : k0 = k
    · simp [insertE, h0]
    · simp [insertE, h0, ih]

/-- A successful `set` makes the value retrievable by `get` at the same
path. -/
theorem getNode_setNodePaths (es : Entries) (paths : List Str) (v : Node)
    (ow : Bool) (es' : Entries) (h : setNodePaths es paths v ow = .ok es') :
    getNode (.dir es') paths = .ok v := by
  induction paths generalizing es es' with
  | nil => simp [setNodePaths] at h
  | cons r rs ih =>
    cases rs with
    | nil =>
      simp only [setNodePaths] at h
      by_cases hc : ow = false ∧ (lookupE es r).isSome
      · rw [if_pos hc] at h
        exact absurd h (by simp)
      · rw [if_neg hc] at h
        have h' : es' = insertE es r v := by
          cases h
          rfl
        subst h'
        simp [getNode, lookupE_insertE_self]
    | cons r2 rs2 =>
      simp only [setNodePaths] at h
      cases hl : lookupE es r with
      | none => simp [hl] at h
      | some n =>
        cases n with
        | file fid => simp [hl] at h
        | dir es2 =>
          simp only [hl] at h
          cases hrec : setNodePaths es2 (r2 :: rs2) v ow with
          | error e => simp [hrec] at h
          | ok es2' =>
            simp only [hrec] at h
            have h' : es' = insertE es r (.dir es2') := by
              cases h
              rfl
            subst h'
            simp only [getNode, lookupE_insertE_self]
            exact ih es2 es2' hrec

/-! ## Files and filesystem state (`DictFile`, `DictFS`)

A `DictFile` is a `BytesIO` with a stored path and a cursor.  Python file
objects are mutable and shared by reference, so the embedding keeps them
in an explicit heap indexed by allocation order; a `Node.file fid` in the
Store references heap slot `fid`.  (The creation timestamp is omitted: no
claim in scope mentions it.) -/

/-- The mutable state of one `DictFile`: its stored `path` attribute, its
byte buffer and its cursor. -/
structure FileData where
  path : Str
  buf : List Nat
  pos : Nat
deriving DecidableEq, Repr

/-- A whole `DictFS` instance: the Store tree, the heap of live file
objects, and the next allocation id. -/
structure FS where
  root : Entries
  heap : List (Nat × FileData)
  nxt : Nat
deriving Repr

def heapLookup : List (Nat × FileData) → Nat → Option FileData
  | [], _ => none
  | (k, v) :: rest, key => if k = key then some v else heapLookup rest key

def heapSet : List (Nat × FileData) → Nat → FileData → List (Nat × FileData)
  | [], k, v => [(k, v)]
  | (k', v') :: rest, k, v =>
      if k' = k then (k, v) :: rest else (k', v') :: heapSet rest k v

/-- OS-style errors surfaced by `DictFS` (`oserror` in `dict.py`). -/
inductive Err where
  | enoent
  | enotdir
  | eisdir
  | eexist
  | enotempty
  | erofs
deriving DecidableEq, Repr

/-- The result of `info`: either a directory entry (name only) or a file
entry (`DictFile.to_json`: the file's stored path, its size, and — for
`file=True` — the file object itself, here its heap id). -/
inductive InfoD where
  | dirInfo (name : Str)
  | fileInfo (name : Str) (size : Nat) (fid : Nat)
deriving DecidableEq, Repr

/-- `DictFS.info`: resolve through the Store, translating `KeyError` to
ENOENT and `TypeError` to ENOTDIR. -/
def dictInfo (fs : FS) (p : Str) : Except Err InfoD :=
  let paths := path_parts p
  let normpath := join_paths paths
  match getNode (.dir fs.root) paths with
  | .error .keyErr => .error .enoent
  | .error .typeErr => .error .enotdir
  | .ok (.dir _) => .ok (.dirInfo normpath)
  | .ok (.file fid) =>
    match heapLookup fs.heap fid with
    | none => .error .enoent  -- unreachable: every stored fid is on the heap
    | some fd => .ok (.fileInfo fd.path fd.buf.length fid)

/-- `DictFS.ls` with `detail=False` and no `sort` flag (the default):
a file lists as itself, a directory lists its children in insertion
order. -/
def dictLs (fs : FS) (p : Str) : Except Err (List Str) :=
  let paths := path_parts p
  let normpath := join_paths paths
  match getNode (.dir fs.root) paths with
  | .error .keyErr => .error .enoent
  | .error .typeErr => .error .enotdir
  | .ok (.file _) => .ok [normpath]
  | .ok (.dir es) => .ok (es.map (fun kv => join_paths (paths ++ [kv.1])))

/-- `DictFile.commit`: `store.set(path_parts(self.path), self,
overwrite=True)`, with `TypeError` ↦ ENOTDIR, `ValueError` ↦ EEXIST,
`KeyError` ↦ ENOENT. -/
def commitFid (fs : FS) (fid : Nat) : Except Err FS :=
  match heapLookup fs.heap fid with
  | none => .error .enoent  -- unreachable: commit is called on live files
  | some fd =>
    match setNodePaths fs.root (path_parts fd.path) (.file fid) true with
    | .ok es => .ok { fs with root := es }
    | .error .typeErr => .error .enotdir
    | .error .valErr => .error .eexist
    | .error .keyErr => .error .enoent

/-- The four open modes of the collaborator contract. -/
def rbM : Str := "rb".data

def wbM : Str := "wb".data

def abM : Str := "ab".data

def rbpM : Str := "rb+".data

/-- The `mode == "wb"` arm of `DictFS._open`: construct a fresh
`DictFile` (optionally seeded with `data`) and commit it immediately
unless a transaction is open. -/
def dictOpenWbNew (fs : FS) (normpath : Str) (intrans : Bool)
    (data : Option (List Nat)) : Except Err (FS × Nat) :=
  let fid := fs.nxt
  let fd : FileData := { path := normpath, buf := data.getD [], pos := 0 }
  let fs1 : FS := { root := fs.root, heap := fs.heap ++ [(fid, fd)], nxt := fs.nxt + 1 }
  if intrans then .ok (fs1, fid)
  else
    match commitFid fs1 fid with
    | .ok fs2 => .ok (fs2, fid)
    | .error e => .error e

/-- `DictFS._open` for the contract modes `rb`, `wb`, `ab`, `rb+`:
a directory fails EISDIR in every mode; a missing path fails ENOENT in
the read/append modes and allocates a fresh file for `wb`; an existing
file is overwritten by `wb` and otherwise returned *itself* (the stored
object), with its cursor seeked to the end for `ab` and to the start
otherwise. -/
def dictOpen (fs : FS) (p : Str) (mode : Str) (intrans : Bool)
    (data : Option (List Nat)) : Except Err (FS × Nat) :=
  let paths := path_parts p
  let normpath := join_paths paths
  match getNode (.dir fs.root) paths with
  | .error .typeErr => .error .enotdir
  | .ok (.dir _) => .error .eisdir
  | .error .keyErr =>
      if mode = rbM ∨ mode = abM ∨ mode = rbpM then .error .enoent
      else dictOpenWbNew fs normpath intrans data
  | .ok (.file fid) =>
      if mode = wbM then dictOpenWbNew fs normpath intrans data
      else
        match heapLookup fs.heap fid with
        | none => .error .enoent  -- unreachable: stored fids are on the heap
        | some fd =>
          let fd' := { fd with pos := if mode = abM then fd.buf.length else 0 }
          .ok ({ fs with heap := heapSet fs.heap fid fd' }, fid)

/-- `BytesIO.write` at the current cursor: overwrite in place, zero-fill
any gap, extend at the end, and advance the cursor. -/
def writeBytes (fd : FileData) (bs : List Nat) : FileData :=
  let pre := fd.buf.take fd.pos ++ List.replicate (fd.pos - fd.buf.length) 0
  let newBuf := pre ++ bs ++ fd.buf.drop (fd.pos + bs.length)
  { fd with buf := newBuf, pos := fd.pos + bs.length }

/-- Write bytes through an open handle: mutates the heap slot the handle
references, never the Store tree. -/
def writeHandle (fs : FS) (fid : Nat) (bs : List Nat) : FS :=
  match heapLookup fs.heap fid with
  | none => fs
  | some fd => { fs with heap := heapSet fs.heap fid (writeBytes fd bs) }

/-- `DictFS.pipe_file`: open for write with the given data (committing
immediately when no transaction is open). -/
def dictPipeFile (fs : FS) (p : Str) (bs : List Nat) (intrans : Bool) :
    Except Err FS :=
  (dictOpen fs p wbM intrans (some bs)).map (·.1)

/-- `DictFS._mkdir_paths`: `store.new_child` with `TypeError` ↦ ENOTDIR,
`ValueError` ↦ EEXIST, `KeyError` ↦ ENOENT. -/
def mkdirPaths (es : Entries) (paths : List Str) : Except Err Entries :=
  match newChild es paths with
  | .ok es' => .ok es'
  | .error .typeErr => .error .enotdir
  | .error .valErr => .error .eexist
  | .error .keyErr => .error .enoent

/-- The creation loop of `DictFS.makedirs`: create each prefix root-to-leaf,
swallowing a `FileExistsError` (EEXIST) only when `exist_ok` is true; every
other error — and EEXIST with `exist_ok=False` — re-raises. -/
def makedirsLoop (exist_ok : Bool) (es : Entries) :
    List (List Str) → Except Err Entries
  | [] => .ok es
  | pre :: rest =>
    match mkdirPaths es pre with
    | .ok es' => makedirsLoop exist_ok es' rest
    | .error .eexist =>
        if exist_ok then makedirsLoop exist_ok es rest else .error .eexist
    | .error e => .error e

/-- The prefixes `paths[: idx + 1]` for `idx in range(len(paths))`. -/
def prefixList (l : List Str) : List (List Str) :=
  (List.range l.length).map (fun i => l.take (i + 1))

/-- `DictFS.makedirs`: succeed silently (or fail EEXIST) when the full
path already exists, fail ENOTDIR when resolution walks into a file, and
otherwise run the creation loop over all prefixes. -/
def dictMakedirs (fs : FS) (p : Str) (exist_ok : Bool) : Except Err FS :=
  let paths := path_parts p
  match getNode (.dir fs.root) paths with
  | .ok _ => if exist_ok then .ok fs else .error .eexist
  | .error .typeErr => .error .enotdir
  | .error .keyErr =>
    match makedirsLoop exist_ok fs.root (prefixList paths) with
    | .ok es => .ok { fs with root := es }
    | .error e => .error e

/-- `DictFS.mkdir`: fail EEXIST if the path resolves to anything; with
`create_parents` delegate to `makedirs(exist_ok=True)`, else create
exactly the leaf. -/
def dictMkdir (fs : FS) (p : Str) (createParents : Bool) : Except Err FS :=
  let paths := path_parts p
  match getNode (.dir fs.root) paths with
  | .ok _ => .error .eexist
  | .error .typeErr => .error .enotdir
  | .error .keyErr =>
    if createParents then dictMakedirs fs p true
    else
      match mkdirPaths fs.root paths with
      | .ok es => .ok { fs with root := es }
      | .error e => .error e

/-- `DictFS._rm_paths`: `store.delete` with `TypeError` ↦ ENOTDIR and
`KeyError` ↦ ENOENT. -/
def rmPaths (fs : FS) (paths : List Str) : Except Err FS :=
  match delNodePaths fs.root paths with
  | .ok es => .ok { fs with root := es }
  | .error .typeErr => .error .enotdir
  | .error .keyErr => .error .enoent

/-- `DictFS._rm` (= `rm_file`): EISDIR on a directory, else delete the
entry. -/
def dictRmFile (fs : FS) (p : Str) : Except Err FS :=
  match dictInfo fs p with
  | .error e => .error e
  | .ok (.dirInfo _) => .error .eisdir
  | .ok (.fileInfo _ _ _) => rmPaths fs (path_parts p)

/-- `DictFS.rmdir`: ENOTDIR on a file, ENOTEMPTY on a non-empty
directory, else delete. -/
def dictRmdir (fs : FS) (p : Str) : Except Err FS :=
  match dictInfo fs p with
  | .error e => .error e
  | .ok (.fileInfo _ _ _) => .error .enotdir
  | .ok (.dirInfo _) =>
    match dictLs fs p with
    | .error e => .error e
    | .ok l => if l = [] then rmPaths fs (path_parts p) else .error .enotempty

/-- `DictFS.rm` for a single path with `recursive=True` and no
`maxdepth`: the whole subtree is deleted directly via `Store.delete`. -/
def dictRmRecursive (fs : FS) (p : Str) : Except Err FS :=
  rmPaths fs (path_parts p)

/-- `DictFS.cp_file`: on an IsADirectory source make a directory at the
destination; otherwise build a *fresh* file whose buffer is a copy of the
source's (`src.getvalue()`) and commit it over the destination. -/
def dictCpFile (fs : FS) (p1 p2 : Str) : Except Err FS :=
  match dictOpen fs p1 rbM false none with
  | .error .eisdir => dictMkdir fs p2 true
  | .error e => .error e
  | .ok (fs1, srcFid) =>
    match heapLookup fs1.heap srcFid with
    | none => .error .enoent  -- unreachable: the open handle is live
    | some srcFd =>
      let fid := fs1.nxt
      let fd : FileData := { path := p2, buf := srcFd.buf, pos := 0 }
      commitFid { root := fs1.root, heap := fs1.heap ++ [(fid, fd)], nxt := fs1.nxt + 1 } fid

/-! ### `find` and sorting

`find` is inherited from the generic filesystem interface: it walks the
tree and returns the sorted list of all file paths below the argument.
Modelled from the spec's collaborator contract (§6) as a pure function of
the Store tree. -/

/-- Lexicographic comparison of strings by code point (Python `str < str`). -/
def strLe : Str → Str → Bool
  | [], _ => true
  | _ :: _, [] => false
  | a :: as, b :: bs => if a = b then strLe as bs else decide (a < b)

def sortStrs (l : List Str) : List Str :=
  l.insertionSort (fun a b => strLe a b = true)

/-- All file paths in a subtree, prefixed by the segments leading to it. -/
def filesOfEntries (pre : List Str) : Entries → List Str
  | [] => []
  | (k, .file _) :: rest => join_paths (pre ++ [k]) :: filesOfEntries pre rest
  | (k, .dir es) :: rest => filesOfEntries (pre ++ [k]) es ++ filesOfEntries pre rest

/-- `find("/")`: the sorted list of every file path in the tree. -/
def findFiles (fs : FS) : List Str := sortStrs (filesOfEntries [] fs.root)

/-! ### Transactions

The transaction scope is inherited from the generic filesystem interface:
while `_intrans` is set, `open` passes `autocommit=False` into `_open`
(so `DictFS._open` skips the immediate `commit` for `wb`), and every
handle opened in a non-read mode is appended to the transaction's file
list; ending the transaction calls `commit()` on each buffered file in
order.  Modelled from the spec (§4.3, §6): the generic scope machinery
is external to this repository; the repository-specific parts
(`if not self._intrans: file.commit()` and `DictFile.commit`) are
embedded from `dict.py`. -/

/-- A `DictFS` together with its transaction state. -/
structure TFS where
  fs : FS
  intrans : Bool
  pending : List Nat

/-- `AbstractFileSystem.open` on a `DictFS`: run `_open`, and while a
transaction is open record non-read handles for deferred commit. -/
def topen (t : TFS) (p : Str) (mode : Str) (data : Option (List Nat)) :
    Except Err (TFS × Nat) :=
  match dictOpen t.fs p mode t.intrans data with
  | .error e => .error e
  | .ok (fs', fid) =>
    .ok ({ fs := fs', intrans := t.intrans,
           pending :=
             if t.intrans ∧ 'r' ∉ mode then t.pending ++ [fid] else t.pending },
         fid)

/-- Commit each buffered file in order (`Transaction.complete`). -/
def commitAll (fs : FS) : List Nat → Except Err FS
  | [] => .ok fs
  | fid :: rest =>
    match commitFid fs fid with
    | .ok fs' => commitAll fs' rest
    | .error e => .error e

/-- `end_transaction`: flush all buffered commits, leave the scope. -/
def endTransaction (t : TFS) : Except Err TFS :=
  (commitAll t.fs t.pending).map (fun fs' => ⟨fs', false, []⟩)

/-- `start_transaction`: enter the scope with an empty buffer. -/
def startTransaction (fs : FS) : TFS := ⟨fs, true, []⟩

/-- The empty `DictFS`: an empty Store, an empty heap. -/
def emptyFS : FS := ⟨[], [], 0⟩

/-! ## OverlayFileSystem (`overlay.py`)

Two embeddings are used.  For claims that quantify over arbitrary
backends (C3, C7), a backend is an abstract function from a path to an
outcome.  For claims about mutation of backend state (C4), the overlay is
instantiated with `DictFS` backends — the repository's own in-memory
backend. -/

/-- Outcome of one backend's `info(path)` as observed by the overlay's
append-mode branch: a directory, an existing file, `FileNotFoundError`,
a skippable `NotImplementedError`/`AttributeError`, or any other
exception (which the overlay's handlers do not catch). -/
inductive InfoOut where
  | dirI
  | fileI
  | errNF
  | errSkip
  | errOther
deriving DecidableEq, Repr

/-- Result of `OverlayFileSystem._open` in append mode, before the final
delegation: fail IsADirectory, fail ReadOnly (EROFS), fall through to
`upper_fs._open`, or let an uncaught backend exception propagate. -/
inductive AppendRes where
  | isADir
  | readOnly
  | openUpper
  | propagate
deriving DecidableEq, Repr

/-- The `for fs in self.fses[1:]` loop of the append branch: the first
lower backend that reports a directory fails IsADirectory, the first that
reports a file fails ReadOnly, `FileNotFoundError`/`NotImplementedError`/
`AttributeError` continue, anything else propagates; an exhausted loop
falls through to the upper-layer open. -/
def appendLowerLoop (p : Str) : List (Str → InfoOut) → AppendRes
  | [] => .openUpper
  | f :: rest =>
    match f p with
    | .dirI => .isADir
    | .fileI => .readOnly
    | .errNF => appendLowerLoop p rest
    | .errSkip => appendLowerLoop p rest
    | .errOther => .propagate

/-- The append-mode branch of `OverlayFileSystem._open`: probe the upper
layer's `info`; a directory fails IsADirectory, a file falls through to
the upper open, `FileNotFoundError` consults the lower layers. -/
def appendProbe (upper : Str → InfoOut) (lowers : List (Str → InfoOut))
    (p : Str) : AppendRes :=
  match upper p with
  | .dirI => .isADir
  | .fileI => .openUpper
  | .errNF => appendLowerLoop p lowers
  | .errSkip => .propagate
  | .errOther => .propagate

/-- The first lower backend response that is neither `FileNotFoundError`
nor skippable — the backend that "has" the path. -/
def firstHit (p : Str) : List (Str → InfoOut) → Option InfoOut
  | [] => none
  | f :: rest =>
    match f p with
    | .errNF => firstHit p rest
    | .errSkip => firstHit p rest
    | r => some r

/-! ### Overlay `ls` over abstract backends (detail listings) -/

/-- One entry of a detail listing: its `name` field and an abstract
payload standing for the rest of the info dict (it distinguishes which
backend's version of an entry is returned). -/
structure LsEntry where
  name : Str
  payload : Nat
deriving DecidableEq, Repr, Inhabited

/-- Outcome of one backend's `ls(path, detail=True)`. -/
inductive LsOut where
  | ok (l : List LsEntry)
  | errNF
  | errUnsup
  | errOther
deriving Repr

/-- Python `name.strip("/")`: remove leading and trailing slashes. -/
def stripName (s : Str) : Str := dropSlashes (dropSlashesR s)

/-- `{**item, "name": name}` with the normalized name. -/
def normEntry (e : LsEntry) : LsEntry := { e with name := stripName e.name }

/-- The `listing` accumulation loop of `OverlayFileSystem.ls`: extend
with each backend's listing, skipping `FileNotFoundError` and
`NotImplementedError`; any other exception propagates. -/
def gatherListings (p : Str) : List (Str → LsOut) → Except Unit (List LsEntry)
  | [] => .ok []
  | f :: rest =>
    match f p with
    | .ok l => (gatherListings p rest).map (fun acc => l ++ acc)
    | .errNF => gatherListings p rest
    | .errUnsup => gatherListings p rest
    | .errOther => .error ()

def lookupN : List (Str × LsEntry) → Str → Option LsEntry
  | [], _ => none
  | (k, v) :: rest, key => if k = key then some v else lookupN rest key

/-- `out.setdefault(name, {**item, "name": name})`: first occurrence
wins, insertion order preserved. -/
def dedupIns (acc : List (Str × LsEntry)) (e : LsEntry) : List (Str × LsEntry) :=
  let nm := stripName e.name
  if (lookupN acc nm).isSome then acc else acc ++ [(nm, normEntry e)]

/-- The order on `(name, entry)` pairs used by `sorted(out.items())`:
compare the normalized names (keys in `out` are unique, so the name
comparison alone decides). -/
def entLe (a b : Str × LsEntry) : Prop := strLe a.1 b.1 = true

instance (a b : Str × LsEntry) : Decidable (entLe a b) := by
  unfold entLe
  infer_instance

/-- `OverlayFileSystem.ls(path, detail=True)`: concatenate the successful
backend listings in order, deduplicate by normalized name keeping the
first occurrence, then sort by name. -/
def overlayLsDetail (fses : List (Str → LsOut)) (p : Str) :
    Except Unit (List LsEntry) :=
  (gatherListings p fses).map (fun listing =>
    let out := listing.foldl dedupIns []
    (out.insertionSort entLe).map (·.2))

/-! ### Overlay over `DictFS` backends (write-target claims) -/

/-- `OverlayFileSystem.info` over `DictFS` backends: first success wins;
`FileNotFoundError` tries the next backend (`NotImplementedError` and
`AttributeError` cannot arise from `DictFS`); other errors propagate;
exhaustion raises a consolidated ENOENT. -/
def overlayInfo (fses : List FS) (p : Str) : Except Err InfoD :=
  match fses with
  | [] => .error .enoent
  | fs :: rest =>
    match dictInfo fs p with
    | .ok i => .ok i
    | .error .enoent => overlayInfo rest p
    | .error e => .error e

/-- `AbstractFileSystem.exists`: does `info` succeed? -/
def overlayExists (fses : List FS) (p : Str) : Bool := (overlayInfo fses p).isOk

/-- `AbstractFileSystem.isdir`: does `info` report a directory? -/
def overlayIsdir (fses : List FS) (p : Str) : Bool :=
  match overlayInfo fses p with
  | .ok (.dirInfo _) => true
  | _ => false

/-- The generic `AbstractFileSystem._parent` contract: the path with its
final segment removed (modelled from the spec; the overlay inherits it
from the external interface library). -/
def parentPath (p : Str) : Str := join_paths ((path_parts p).dropLast)

/-- `OverlayFileSystem.mkdir`: EEXIST if the path exists in the union;
without `create_parents` require the parent to be a directory of the
union; then create on the upper backend only. -/
def overlayMkdir (fses : List FS) (p : Str) (createParents : Bool) :
    Except Err (List FS) :=
  match fses with
  | [] => .error .enoent  -- unreachable: an overlay has at least the upper backend
  | upper :: lowers =>
    if overlayExists (upper :: lowers) p then .error .eexist
    else if createParents = false ∧ overlayIsdir (upper :: lowers) (parentPath p) = false then
      .error .enoent
    else (dictMkdir upper p true).map (fun u => u :: lowers)

/-- `OverlayFileSystem.makedirs`: delegate to the upper backend. -/
def overlayMakedirs (fses : List FS) (p : Str) (exist_ok : Bool) :
    Except Err (List FS) :=
  match fses with
  | [] => .error .enoent  -- unreachable
  | upper :: lowers => (dictMakedirs upper p exist_ok).map (fun u => u :: lowers)

/-- `OverlayFileSystem.rmdir`: delegate to the upper backend. -/
def overlayRmdir (fses : List FS) (p : Str) : Except Err (List FS) :=
  match fses with
  | [] => .error .enoent  -- unreachable
  | upper :: lowers => (dictRmdir upper p).map (fun u => u :: lowers)

/-- `OverlayFileSystem._rm`: delegate to the upper backend. -/
def overlayRmFile (fses : List FS) (p : Str) : Except Err (List FS) :=
  match fses with
  | [] => .error .enoent  -- unreachable
  | upper :: lowers => (dictRmFile upper p).map (fun u => u :: lowers)

/-- Recursive remove on the overlay: `rm` resolves through the generic
interface to `_rm`-style deletion on the upper backend only
(`DictFS.rm(recursive=True)` semantics on the upper layer). -/
def overlayRmRecursive (fses : List FS) (p : Str) : Except Err (List FS) :=
  match fses with
  | [] => .error .enoent  -- unreachable
  | upper :: lowers => (dictRmRecursive upper p).map (fun u => u :: lowers)

/-- Generic substring test (Python `"rb" in mode`). -/
def containsSub (pat : Str) (s : Str) : Bool :=
  if isPre pat s then true
  else
    match s with
    | [] => false
    | _ :: rest => containsSub pat rest

/-- The `if "rb" in mode` loop of `OverlayFileSystem._open`: try each
backend's `_open` in order; `FileNotFoundError` continues, other errors
propagate; returns the new backend states, the index of the backend that
served the handle, and the handle's file id. -/
def openReadLoop (fses : List FS) (p : Str) (mode : Str) : Except Err (List FS × Nat × Nat) :=
  match fses with
  | [] => .error .enoent
  | fs :: rest =>
    match dictOpen fs p mode false none with
    | .ok (fs', fid) => .ok (fs' :: rest, 0, fid)
    | .error .enoent =>
      match openReadLoop rest p mode with
      | .ok (l, j, fid) => .ok (fs :: l, j + 1, fid)
      | .error e => .error e
    | .error e => .error e

/-- The `fses[1:]` probe of the append branch over `DictFS` backends. -/
def overlayAppendCheck (lowers : List FS) (p : Str) : Except Err Unit :=
  match lowers with
  | [] => .ok ()
  | fs :: rest =>
    match dictInfo fs p with
    | .ok (.dirInfo _) => .error .eisdir
    | .ok (.fileInfo _ _ _) => .error .erofs
    | .error .enoent => overlayAppendCheck rest p
    | .error e => .error e

/-- `OverlayFileSystem._open` over `DictFS` backends.  `"rb" in mode`
(true for both `rb` and `rb+`!) dispatches to the first backend holding
the path; `"ab" in mode` runs the append probe and then opens on the
upper backend; every other mode (`wb`) opens on the upper backend. -/
def overlayOpen (fses : List FS) (p : Str) (mode : Str) : Except Err (List FS × Nat × Nat) :=
  match fses with
  | [] => .error .enoent  -- unreachable
  | upper :: lowers =>
    if containsSub rbM mode then openReadLoop (upper :: lowers) p mode
    else
      let chk : Except Err Unit :=
        if containsSub abM mode then
          match dictInfo upper p with
          | .ok (.dirInfo _) => .error .eisdir
          | .ok (.fileInfo _ _ _) => .ok ()
          | .error .enoent => overlayAppendCheck lowers p
          | .error e => .error e
        else .ok ()
      match chk with
      | .error e => .error e
      | .ok _ =>
        match dictOpen upper p mode false none with
        | .ok (u, fid) => .ok (u :: lowers, 0, fid)
        | .error e => .error e

/-- Write bytes through a handle returned by `overlayOpen`: mutates the
file object on the backend that served the handle. -/
def overlayWriteHandle (fses : List FS) (i : Nat) (fid : Nat) (bs : List Nat) : List FS :=
  match fses, i with
  | [], _ => []
  | fs :: rest, 0 => writeHandle fs fid bs :: rest
  | fs :: rest, j + 1 => fs :: overlayWriteHandle rest j fid bs

/-! ## Lemmas about `makedirs` (claim C1) -/

theorem insertE_self_lookup (es : Entries) (k : Str) (v : Node)
    (h : lookupE es k = some v) : insertE es k v = es := by
  induction es with
  | nil => simp [lookupE] at h
  | cons kv rest ih =>
    obtain ⟨k0, v0⟩ := kv
    by_cases h0 : k0 = k
    · subst h0
      simp [lookupE] at h
      simp [insertE, h]
    · simp [lookupE, h0] at h
      simp [insertE, h0, ih h]

theorem mkdirPaths_single (es : Entries) (k : Str) :
    mkdirPaths es [k] =
      if (lookupE es k).isSome then .error .eexist
      else .ok (insertE es k (.dir [])) := by
  unfold mkdirPaths newChild setNodePaths
  by_cases h : (lookupE es k).isSome <;> simp [h]

theorem mkdirPaths_descend (es esr : Entries) (r : Str) (rs : List Str)
    (h : lookupE es r = some (.dir esr)) (hrs : rs ≠ []) :
    mkdirPaths es (r :: rs) =
      match mkdirPaths esr rs with
      | .ok es' => .ok (insertE es r (.dir es'))
      | .error e => .error e := by
  cases rs with
  | nil => exact absurd rfl hrs
  | cons r2 rs2 =>
    show mkdirPaths es (r :: r2 :: rs2) = _
    unfold mkdirPaths newChild
    have hstep : setNodePaths es (r :: r2 :: rs2) (.dir []) false =
        match setNodePaths esr (r2 :: rs2) (.dir []) false with
        | .ok es'' => .ok (insertE es r (.dir es''))
        | .error e => .error e := by
      simp only [setNodePaths, h]
    rw [hstep]
    cases hs : setNodePaths esr (r2 :: rs2) (.dir []) false with
    | ok es'' => simp
    | error e => cases e <;> simp

theorem prefixList_cons (k : Str) (l : List Str) :
    prefixList (k :: l) = [k] :: (prefixList l).map (fun pre => k :: pre) := by
  simp only [prefixList, List.length_cons, List.range_succ_eq_map, List.map_cons,
    List.map_map]
  simp [Function.comp_def, List.take_succ_cons]

theorem prefixList_ne_nil (l : List Str) (pre : List Str)
    (h : pre ∈ prefixList l) : pre ≠ [] := by
  simp only [prefixList, List.mem_map, List.mem_range] at h
  obtain ⟨i, hi, hpre⟩ := h
  subst hpre
  cases l with
  | nil => simp at hi
  | cons x xs => simp [List.take_succ_cons]

/-- The creation loop under an existing directory entry `k`: iterating
prefixes that all start with `k` is the loop on the subtree, re-inserted
at `k`. -/
theorem makedirsLoop_under (ok_ : Bool) (es esk : Entries) (k : Str)
    (ps : List (List Str)) (hk : lookupE es k = some (.dir esk))
    (hps : ∀ pre ∈ ps, pre ≠ []) :
    makedirsLoop ok_ es (ps.map (fun pre => k :: pre)) =
      match makedirsLoop ok_ esk ps with
      | .ok esk' => .ok (insertE es k (.dir esk'))
      | .error e => .error e := by
  induction ps generalizing es esk with
  | nil =>
    simp only [List.map_nil, makedirsLoop]
    rw [insertE_self_lookup es k (.dir esk) hk]
  | cons pre rest ih =>
    simp only [List.map_cons, makedirsLoop]
    rw [mkdirPaths_descend es esk k pre hk (hps pre (by simp))]
    cases hstep : mkdirPaths esk pre with
    | ok esk1 =>
      simp only [makedirsLoop]
      rw [ih (insertE es k (.dir esk1)) esk1 (lookupE_insertE_self es k _)
        (fun q hq => hps q (by simp [hq]))]
      cases hrest : makedirsLoop ok_ esk1 rest with
      | ok es'' => simp [insertE_insertE_self]
      | error e => simp
    | error e =>
      cases e with
      | eexist =>
        by_cases hok : ok_ = true
        · subst hok
          simp only [if_pos rfl, makedirsLoop]
          exact ih es esk hk (fun q hq => hps q (by simp [hq]))
        · have hok' : ok_ = false := by
            cases ok_
            · rfl
            · exact absurd rfl hok
          subst hok'
          simp [makedirsLoop]
      | enoent => simp [makedirsLoop]
      | enotdir => simp [makedirsLoop]
      | eisdir => simp [makedirsLoop]
      | enotempty => simp [makedirsLoop]
      | erofs => simp [makedirsLoop]

/-- On an empty directory the creation loop always succeeds and builds
the whole chain. -/
theorem makedirsLoop_fresh (ok_ : Bool) (ks : List Str) :
    ∃ es', makedirsLoop ok_ [] (prefixList ks) = .ok es' ∧
      getNode (.dir es') ks = .ok (.dir []) := by
  induction ks with
  | nil => exact ⟨[], rfl, rfl⟩
  | cons k ks' ih =>
    obtain ⟨esk', hloop, hget⟩ := ih
    rw [prefixList_cons]
    refine ⟨insertE [(k, .dir [])] k (.dir esk'), ?_, ?_⟩
    · simp only [makedirsLoop, mkdirPaths_single, lookupE, Option.isSome_none,
        Bool.false_eq_true, if_false]
      have h1 : insertE ([] : Entries) k (.dir []) = [(k, .dir [])] := rfl
      rw [h1,
        makedirsLoop_under ok_ [(k, .dir [])] [] k (prefixList ks')
          (by simp [lookupE]) (prefixList_ne_nil ks'), hloop]
    · have h2 : insertE [(k, .dir [])] k (.dir esk') = [(k, .dir esk')] := by
        simp [insertE]
      rw [h2]
      simp only [getNode, lookupE, if_pos rfl]
      exact hget

/-- `makedirs` with `exist_ok=True` on a path whose resolution ends in
`KeyError` creates all missing ancestors and the leaf. -/
theorem makedirsLoop_exists_ok (es : Entries) (paths : List Str)
    (h : getNode (.dir es) paths = .error .keyErr) :
    ∃ es', makedirsLoop true es (prefixList paths) = .ok es' ∧
      getNode (.dir es') paths = .ok (.dir []) := by
  induction paths generalizing es with
  | nil => simp [getNode] at h
  | cons k ks ih =>
    rw [prefixList_cons]
    cases hk : lookupE es k with
    | none =>
      obtain ⟨esk', hloop, hget⟩ := makedirsLoop_fresh true ks
      refine ⟨insertE (insertE es k (.dir [])) k (.dir esk'), ?_, ?_⟩
      · simp only [makedirsLoop, mkdirPaths_single, hk, Option.isSome_none,
          Bool.false_eq_true, if_false]
        rw [makedirsLoop_under true (insertE es k (.dir [])) [] k (prefixList ks)
          (lookupE_insertE_self es k _) (prefixList_ne_nil ks), hloop]
      · rw [insertE_insertE_self]
        simp only [getNode, lookupE_insertE_self]
        exact hget
    | some n =>
      cases n with
      | file fid =>
        exfalso
        cases ks with
        | nil => simp [getNode, hk] at h
        | cons k2 ks2 => simp [getNode, hk] at h
      | dir esk =>
        have hks : getNode (.dir esk) ks = .error .keyErr := by
          simpa [getNode, hk] using h
        obtain ⟨esk', hloop, hget⟩ := ih esk hks
        refine ⟨insertE es k (.dir esk'), ?_, ?_⟩
        · simp only [makedirsLoop, mkdirPaths_single, hk, Option.isSome_some, if_true]
          rw [makedirsLoop_under true es esk k (prefixList ks) hk
            (prefixList_ne_nil ks), hloop]
        · simp only [getNode, lookupE_insertE_self]
          exact hget

/-- `makedirs` with `exist_ok=False` when even the first segment is
missing: everything is created fresh. -/
theorem makedirsLoop_false_fresh (es : Entries) (k : Str) (ks : List Str)
    (hk : lookupE es k = none) :
    ∃ es', makedirsLoop false es (prefixList (k :: ks)) = .ok es' ∧
      getNode (.dir es') (k :: ks) = .ok (.dir []) := by
  obtain ⟨esk', hloop, hget⟩ := makedirsLoop_fresh false ks
  rw [prefixList_cons]
  refine ⟨insertE (insertE es k (.dir [])) k (.dir esk'), ?_, ?_⟩
  · simp only [makedirsLoop, mkdirPaths_single, hk, Option.isSome_none,
      Bool.false_eq_true, if_false]
    rw [makedirsLoop_under false (insertE es k (.dir [])) [] k (prefixList ks)
      (lookupE_insertE_self es k _) (prefixList_ne_nil ks), hloop]
  · rw [insertE_insertE_self]
    simp only [getNode, lookupE_insertE_self]
    exact hget

/-- `makedirs` with `exist_ok=False` re-raises the EEXIST of a
pre-existing first prefix. -/
theorem makedirsLoop_false_exists (es : Entries) (k : Str) (ks : List Str)
    (n0 : Node) (hk : lookupE es k = some n0) :
    makedirsLoop false es (prefixList (k :: ks)) = .error .eexist := by
  rw [prefixList_cons]
  simp [makedirsLoop, mkdirPaths_single, hk]

theorem dictMakedirs_of_keyErr (fs : FS) (p : Str) (ok_ : Bool)
    (h : getNode (.dir fs.root) (path_parts p) = .error .keyErr) :
    dictMakedirs fs p ok_ =
      match makedirsLoop ok_ fs.root (prefixList (path_parts p)) with
      | .ok es => .ok { fs with root := es }
      | .error e => .error e := by
  unfold dictMakedirs
  simp only [h]

/-! ## Claim theorems -/

/-- **C1** (counterexample).  The claim asserts that `makedirs` with
`exist_ok=False` on a path that does not yet exist swallows the EEXIST of
a pre-existing intermediate directory and only a final-segment EEXIST can
re-raise — so `makedirs("/a/b", exist_ok=False)` with `/a` an existing
directory and `/a/b` absent should succeed.  The code re-raises the
intermediate EEXIST: the call fails AlreadyExists (`test_makedirs` in the
repository asserts exactly this for `/dir1/dir2/dir3`). -/
theorem c1_counterexample :
    getNode (.dir [("a".data, Node.dir [])]) (path_parts "/a/b".data) =
      .error .keyErr
    ∧ dictMakedirs ⟨[("a".data, .dir [])], [], 0⟩ "/a/b".data false =
      .error .eexist :=
  ⟨rfl, rfl⟩

/-- **C1** (amended).  `DictFS.makedirs(path, exist_ok)`:
* if the full path already exists, the call succeeds silently when
  `exist_ok` is true and fails AlreadyExists otherwise;
* if the full path does not exist (resolution ends in `KeyError`):
  with `exist_ok=True` every missing ancestor is created root-to-leaf and
  pre-existing intermediate directories are tolerated (their EEXIST is
  swallowed), the full path ending as a fresh empty directory;
  with `exist_ok=False` the EEXIST of *any* pre-existing prefix —
  necessarily an intermediate, since the full path is absent — is
  re-raised: the call succeeds only when even the first segment is
  missing, and fails AlreadyExists whenever the first segment already
  exists. -/
theorem c1_makedirs_amended (fs : FS) (p : Str) :
    (∀ n, getNode (.dir fs.root) (path_parts p) = .ok n →
      dictMakedirs fs p true = .ok fs ∧ dictMakedirs fs p false = .error .eexist)
    ∧ (getNode (.dir fs.root) (path_parts p) = .error .keyErr →
        (∃ es', dictMakedirs fs p true = .ok { fs with root := es' } ∧
          getNode (.dir es') (path_parts p) = .ok (.dir []))
        ∧ (∀ k ks, path_parts p = k :: ks →
            (lookupE fs.root k = none →
              ∃ es', dictMakedirs fs p false = .ok { fs with root := es' } ∧
                getNode (.dir es') (path_parts p) = .ok (.dir []))
            ∧ (∀ n0, lookupE fs.root k = some n0 →
                dictMakedirs fs p false = .error .eexist))) := by
  constructor
  · intro n hres
    unfold dictMakedirs
    simp only [hres]
    exact ⟨rfl, rfl⟩
  · intro hres
    constructor
    · obtain ⟨es', hloop, hget⟩ := makedirsLoop_exists_ok fs.root (path_parts p) hres
      exact ⟨es', by rw [dictMakedirs_of_keyErr fs p true hres, hloop], hget⟩
    · intro k ks hpp
      constructor
      · intro hnone
        obtain ⟨es', hloop, hget⟩ := makedirsLoop_false_fresh fs.root k ks hnone
        refine ⟨es', ?_, ?_⟩
        · rw [dictMakedirs_of_keyErr fs p false hres, hpp, hloop]
        · rw [hpp]; exact hget
      · intro n0 hsome
        rw [dictMakedirs_of_keyErr fs p false hres, hpp,
          makedirsLoop_false_exists fs.root k ks n0 hsome]

/-- **C1** (witness).  The amended theorem applied to the concrete state
with an existing directory `/a` and the path `/a/b`. -/
theorem c1_makedirs_amended_witness :
    getNode (.dir [("a".data, Node.dir [])]) (path_parts "/a/b".data) =
      .error .keyErr
    ∧ path_parts "/a/b".data = "a".data :: ["b".data]
    ∧ lookupE [("a".data, Node.dir [])] "a".data = some (Node.dir [])
    ∧ dictMakedirs ⟨[("a".data, .dir [])], [], 0⟩ "/a/b".data false =
      .error .eexist := by
  refine ⟨rfl, rfl, rfl, ?_⟩
  exact (((c1_makedirs_amended ⟨[("a".data, .dir [])], [], 0⟩ "/a/b".data).2
    rfl).2 "a".data ["b".data] rfl).2 (Node.dir []) rfl

/-- **C5**.  The root of a `DictFS` Store always exists and is a
directory: `rm("/", recursive=True)` clears all children of the root but
keeps the root itself, so `ls("/")` is empty afterwards, and `info` of
the root reports a directory on every state. -/
theorem c5_root_preserved (fs : FS) :
    dictRmRecursive fs "/".data = .ok { fs with root := [] }
    ∧ dictLs { fs with root := ([] : Entries) } "/".data = .ok []
    ∧ (∀ g : FS, dictInfo g "".data = .ok (.dirInfo rootMarker)) :=
  ⟨rfl, rfl, fun _ => rfl⟩

/-- **C6** (counterexample).  Normalization is not idempotent on all
inputs: `_strip_protocol("a://") = "a:"` (the embedded-delimiter
passthrough branch only trims trailing slashes), but
`_strip_protocol("a:") = "/a:"`. -/
theorem c6_counterexample :
    strip_protocol (strip_protocol "a://".data) ≠ strip_protocol "a://".data := by
  decide

/-- **C6** (amended).  `join(segments(join(S))) = join(S)` holds for every
valid segment sequence (non-empty, separator-free segments); and
normalization is idempotent on every input that carries no protocol
prefix and no embedded scheme delimiter (`::`, `://`) — on delimiter
passthrough inputs such as `"a://"` it is not. -/
theorem c6_roundtrip_amended :
    (∀ S : List Str, (∀ g ∈ S, validSeg g) →
      join_paths (path_parts (join_paths S)) = join_paths S)
    ∧ (∀ p : Str, isPre protoPre p = false → hasPair ':' ':' p = false →
        hasTriple ':' '/' '/' p = false →
        strip_protocol (strip_protocol p) = strip_protocol p) := by
  constructor
  · intro S h
    rw [parts_join S h]
  · exact strip_idem

/-- **C6** (witness).  The round trip at `S = ["a", "b"]` and idempotence
at `p = "/x/y"`. -/
theorem c6_roundtrip_amended_witness :
    ((∀ g ∈ (["a".data, "b".data] : List Str), validSeg g)
      ∧ join_paths (path_parts (join_paths ["a".data, "b".data])) =
        join_paths ["a".data, "b".data])
    ∧ (isPre protoPre "/x/y".data = false
      ∧ hasPair ':' ':' "/x/y".data = false
      ∧ hasTriple ':' '/' '/' "/x/y".data = false
      ∧ strip_protocol (strip_protocol "/x/y".data) = strip_protocol "/x/y".data) :=
  ⟨⟨by decide, c6_roundtrip_amended.1 _ (by decide)⟩,
    ⟨by decide, by decide, by decide,
      c6_roundtrip_amended.2 _ (by decide) (by decide) (by decide)⟩⟩

/-! ### Heap and path support lemmas (claims C2, C8, C9, C10) -/

theorem heapLookup_heapSet_self (h : List (Nat × FileData)) (k : Nat) (v : FileData) :
    heapLookup (heapSet h k v) k = some v := by
  induction h with
  | nil => simp [heapSet, heapLookup]
  | cons kv rest ih =>
    obtain ⟨k0, v0⟩ := kv
    by_cases h0 : k0 = k
    · simp [heapSet, h0, heapLookup]
    · simp [heapSet, h0, heapLookup, ih]

theorem heapLookup_heapSet_ne (h : List (Nat × FileData)) (k k' : Nat)
    (v : FileData) (hne : k ≠ k') :
    heapLookup (heapSet h k v) k' = heapLookup h k' := by
  induction h with
  | nil => simp [heapSet, heapLookup, hne]
  | cons kv rest ih =>
    obtain ⟨k0, v0⟩ := kv
    by_cases h0 : k0 = k
    · subst h0
      simp [heapSet, heapLookup, hne]
    · simp [heapSet, h0, heapLookup, ih]

/-- Appending a fresh slot (key above every existing key) makes it
retrievable. -/
theorem heapLookup_append_fresh (h : List (Nat × FileData)) (n : Nat)
    (fd : FileData) (hwf : ∀ kv ∈ h, kv.1 < n) :
    heapLookup (h ++ [(n, fd)]) n = some fd := by
  induction h with
  | nil => simp [heapLookup]
  | cons kv rest ih =>
    obtain ⟨k0, v0⟩ := kv
    have hk0 : k0 ≠ n := Nat.ne_of_lt (hwf (k0, v0) (by simp))
    simp only [List.cons_append, heapLookup, if_neg hk0]
    exact ih (fun kv hkv => hwf kv (by simp [hkv]))

/-- Appending a fresh slot does not disturb lookups of older keys. -/
theorem heapLookup_append_old (h : List (Nat × FileData)) (n k : Nat)
    (fd : FileData) (hk : k ≠ n) :
    heapLookup (h ++ [(n, fd)]) k = heapLookup h k := by
  induction h with
  | nil => simp [heapLookup, Ne.symm hk]
  | cons kv rest ih =>
    obtain ⟨k0, v0⟩ := kv
    by_cases h0 : k0 = k
    · simp [heapLookup, h0]
    · simp [heapLookup, h0, ih]

/-- Every group produced by `splitSep` is separator-free. -/
theorem splitSep_groups_noslash (s : Str) (g : Str) (h : g ∈ splitSep s) :
    '/' ∉ g := by
  induction s generalizing g with
  | nil =>
    simp [splitSep] at h
    simp [h]
  | cons c cs ih =>
    cases hcs : splitSep cs with
    | nil => exact absurd hcs (splitSep_ne_nil cs)
    | cons g0 gs =>
      have e : splitSep (c :: cs) =
          if c = '/' then [] :: g0 :: gs else (c :: g0) :: gs := by
        simp [splitSep, hcs]
      rw [e] at h
      by_cases hc : c = '/'
      · rw [if_pos hc] at h
        rcases List.mem_cons.mp h with h1 | h1
        · simp [h1]
        · exact ih g (by rw [hcs]; exact h1)
      · rw [if_neg hc] at h
        rcases List.mem_cons.mp h with h1 | h1
        · subst h1
          intro hmem
          rcases List.mem_cons.mp hmem with h2 | h2
          · exact hc h2.symm
          · exact ih g0 (by rw [hcs]; simp) h2
        · exact ih g (by rw [hcs]; simp [h1])

/-- Every segment produced by `path_parts` is separator-free. -/
theorem path_parts_noslash (p : Str) (g : Str) (h : g ∈ path_parts p) :
    '/' ∉ g := by
  unfold path_parts at h
  by_cases hq : strip_protocol p = "/".data
  · rw [if_pos hq] at h
    simp at h
  · rw [if_neg hq] at h
    cases hsp : splitSep (strip_protocol p) with
    | nil => rw [hsp] at h; simp at h
    | cons g0 gs =>
      rw [hsp] at h
      exact splitSep_groups_noslash (strip_protocol p) g (by rw [hsp]; simp [h])

/-- Normalizing a normalized path re-splits into the same segments,
provided no segment is empty (segments are separator-free by
construction). -/
theorem parts_of_parts (p : Str) (hv : ∀ g ∈ path_parts p, g ≠ []) :
    path_parts (join_paths (path_parts p)) = path_parts p :=
  parts_join (path_parts p) (fun g hg => ⟨hv g hg, path_parts_noslash p g hg⟩)

/-- What a successful autocommitting `wb` open does: allocate a fresh
file seeded with the data, bump the allocation counter, and commit it
into the Store at the normalized path. -/
theorem dictOpen_wb_commit (fs : FS) (p : Str) (bs : List Nat) (fs1 : FS) (fid : Nat)
    (hwf : ∀ kv ∈ fs.heap, kv.1 < fs.nxt)
    (hv : ∀ g ∈ path_parts p, g ≠ [])
    (h : dictOpen fs p wbM false (some bs) = .ok (fs1, fid)) :
    fid = fs.nxt
    ∧ fs1.heap = fs.heap ++ [(fs.nxt, ⟨join_paths (path_parts p), bs, 0⟩)]
    ∧ fs1.nxt = fs.nxt + 1
    ∧ getNode (.dir fs1.root) (path_parts p) = .ok (.file fs.nxt) := by
  unfold dictOpen at h
  have hnew : dictOpenWbNew fs (join_paths (path_parts p)) false (some bs) =
      .ok (fs1, fid) := by
    cases hres : getNode (.dir fs.root) (path_parts p) with
    | ok n =>
      cases n with
      | dir es => simp [hres] at h
      | file f0 =>
        simp only [hres] at h
        rwa [if_pos trivial] at h
    | error e =>
      cases e with
      | typeErr => simp [hres] at h
      | keyErr =>
        simp only [hres] at h
        rwa [if_neg (by decide)] at h
  clear h
  unfold dictOpenWbNew at hnew
  rw [if_neg (by simp)] at hnew
  unfold commitFid at hnew
  rw [heapLookup_append_fresh fs.heap fs.nxt _ hwf] at hnew
  simp only at hnew
  rw [parts_of_parts p hv] at hnew
  cases hset : setNodePaths fs.root (path_parts p) (.file fs.nxt) true with
  | error e =>
    rw [hset] at hnew
    cases e <;> simp at hnew
  | ok es =>
    rw [hset] at hnew
    simp only [Except.ok.injEq, Prod.mk.injEq] at hnew
    obtain ⟨hfs1, hfid⟩ := hnew
    refine ⟨hfid.symm, ?_, ?_, ?_⟩
    · rw [← hfs1]
      simp
    · rw [← hfs1]
    · rw [← hfs1]
      exact getNode_setNodePaths fs.root (path_parts p) _ true es hset

/-- Opening an existing file in a non-`wb` mode returns the stored file
object itself, only repositioning its cursor. -/
theorem dictOpen_read_stored (fs : FS) (p : Str) (m : Str) (fid : Nat) (fd : FileData)
    (hm : ¬m = wbM)
    (hget : getNode (.dir fs.root) (path_parts p) = .ok (.file fid))
    (hlook : heapLookup fs.heap fid = some fd) :
    dictOpen fs p m false none =
      .ok ({ fs with heap := heapSet fs.heap fid ({ fd with pos := if m = abM then fd.buf.length else 0 }) }, fid) := by
  unfold dictOpen
  simp only [hget]
  rw [if_neg hm, hlook]

/-- **C9**.  After `pipe_file(p, bs)` (write `bs` and commit), reopening
in a non-append mode (`rb`, `rb+`) yields a handle whose cursor is `0`
and whose buffer is exactly the written bytes (read-from-start without
seeking), while reopening in append mode (`ab`) yields the cursor at
end-of-content (`tell() == len(bs)`, e.g. 7 for the 7 bytes
`"content"`). -/
theorem c9_open_cursor (fs fs1 : FS) (p : Str) (bs : List Nat)
    (hwf : ∀ kv ∈ fs.heap, kv.1 < fs.nxt)
    (hv : ∀ g ∈ path_parts p, g ≠ [])
    (h : dictPipeFile fs p bs false = .ok fs1) :
    (∃ fs2 fd, dictOpen fs1 p rbM false none = .ok (fs2, fs.nxt) ∧
      heapLookup fs2.heap fs.nxt = some fd ∧ fd.pos = 0 ∧ fd.buf = bs)
    ∧ (∃ fs2 fd, dictOpen fs1 p rbpM false none = .ok (fs2, fs.nxt) ∧
      heapLookup fs2.heap fs.nxt = some fd ∧ fd.pos = 0 ∧ fd.buf = bs)
    ∧ (∃ fs2 fd, dictOpen fs1 p abM false none = .ok (fs2, fs.nxt) ∧
      heapLookup fs2.heap fs.nxt = some fd ∧ fd.pos = bs.length ∧ fd.buf = bs) := by
  obtain ⟨⟨fs1', fid'⟩, hopen, hfst⟩ :
      ∃ r, dictOpen fs p wbM false (some bs) = .ok r ∧ r.1 = fs1 := by
    unfold dictPipeFile at h
    cases hop : dictOpen fs p wbM false (some bs) with
    | error e => rw [hop] at h; simp [Except.map] at h
    | ok r =>
      rw [hop] at h
      simp only [Except.map, Except.ok.injEq] at h
      exact ⟨r, rfl, h⟩
  obtain ⟨hfid, hheap, hnxt, hget⟩ :=
    dictOpen_wb_commit fs p bs fs1' fid' hwf hv hopen
  subst hfst
  have hlook : heapLookup fs1'.heap fs.nxt =
      some ⟨join_paths (path_parts p), bs, 0⟩ := by
    rw [hheap]
    exact heapLookup_append_fresh fs.heap fs.nxt _ hwf
  refine ⟨?_, ?_, ?_⟩
  · refine ⟨_, _, dictOpen_read_stored fs1' p rbM fs.nxt _ (by decide) hget hlook,
      heapLookup_heapSet_self fs1'.heap fs.nxt _, ?_, ?_⟩
    · show (if rbM = abM then bs.length else 0) = 0
      rw [if_neg (by decide)]
    · rfl
  · refine ⟨_, _, dictOpen_read_stored fs1' p rbpM fs.nxt _ (by decide) hget hlook,
      heapLookup_heapSet_self fs1'.heap fs.nxt _, ?_, ?_⟩
    · show (if rbpM = abM then bs.length else 0) = 0
      rw [if_neg (by decide)]
    · rfl
  · refine ⟨_, _, dictOpen_read_stored fs1' p abM fs.nxt _ (by decide) hget hlook,
      heapLookup_heapSet_self fs1'.heap fs.nxt _, ?_, ?_⟩
    · show (if abM = abM then bs.length else 0) = bs.length
      rw [if_pos rfl]
    · rfl

/-- **C9** (witness).  The theorem at the concrete state with directory
`src`, writing the 7 bytes of `"content"` to `src/file.txt`: reopening
gives `tell() == 0` for `rb`/`rb+` and `tell() == 7` for `ab`. -/
theorem c9_open_cursor_witness :
    ((∀ kv ∈ (⟨[("src".data, .dir [])], [], 0⟩ : FS).heap,
        kv.1 < (⟨[("src".data, .dir [])], [], 0⟩ : FS).nxt)
      ∧ (∀ g ∈ path_parts "src/file.txt".data, g ≠ [])
      ∧ dictPipeFile ⟨[("src".data, .dir [])], [], 0⟩ "src/file.txt".data
          [99, 111, 110, 116, 101, 110, 116] false =
        .ok ⟨[("src".data, .dir [("file.txt".data, .file 0)])],
          [(0, ⟨"/src/file.txt".data, [99, 111, 110, 116, 101, 110, 116], 0⟩)], 1⟩)
    ∧ ((∃ fs2 fd,
        dictOpen ⟨[("src".data, .dir [("file.txt".data, .file 0)])],
          [(0, ⟨"/src/file.txt".data, [99, 111, 110, 116, 101, 110, 116], 0⟩)], 1⟩
          "src/file.txt".data rbM false none = .ok (fs2, 0) ∧
        heapLookup fs2.heap 0 = some fd ∧ fd.pos = 0 ∧
        fd.buf = [99, 111, 110, 116, 101, 110, 116])
      ∧ (∃ fs2 fd,
        dictOpen ⟨[("src".data, .dir [("file.txt".data, .file 0)])],
          [(0, ⟨"/src/file.txt".data, [99, 111, 110, 116, 101, 110, 116], 0⟩)], 1⟩
          "src/file.txt".data rbpM false none = .ok (fs2, 0) ∧
        heapLookup fs2.heap 0 = some fd ∧ fd.pos = 0 ∧
        fd.buf = [99, 111, 110, 116, 101, 110, 116])
      ∧ (∃ fs2 fd,
        dictOpen ⟨[("src".data, .dir [("file.txt".data, .file 0)])],
          [(0, ⟨"/src/file.txt".data, [99, 111, 110, 116, 101, 110, 116], 0⟩)], 1⟩
          "src/file.txt".data abM false none = .ok (fs2, 0) ∧
        heapLookup fs2.heap 0 = some fd ∧ fd.pos = 7 ∧
        fd.buf = [99, 111, 110, 116, 101, 110, 116])) := by
  refine ⟨⟨by simp, by decide, rfl⟩, ?_⟩
  exact c9_open_cursor ⟨[("src".data, .dir [])], [], 0⟩ _ "src/file.txt".data
    [99, 111, 110, 116, 101, 110, 116] (by simp) (by decide) rfl

theorem writeBytes_at_end (pa : Str) (b : List Nat) (bs : List Nat) :
    (writeBytes ⟨pa, b, b.length⟩ bs).buf = b ++ bs := by
  unfold writeBytes
  simp

theorem heapLookup_mem (h : List (Nat × FileData)) (k : Nat) (v : FileData)
    (hl : heapLookup h k = some v) : (k, v) ∈ h := by
  induction h with
  | nil => simp [heapLookup] at hl
  | cons kv rest ih =>
    obtain ⟨k0, v0⟩ := kv
    by_cases h0 : k0 = k
    · subst h0
      simp [heapLookup] at hl
      simp [hl]
    · simp only [heapLookup, if_neg h0] at hl
      exact List.mem_cons_of_mem _ (ih hl)

theorem heapSet_keys_lt (h : List (Nat × FileData)) (k n : Nat) (v : FileData)
    (hwf : ∀ kv ∈ h, kv.1 < n) (hk : k < n) :
    ∀ kv ∈ heapSet h k v, kv.1 < n := by
  induction h with
  | nil =>
    intro kv hkv
    simp [heapSet] at hkv
    simp [hkv, hk]
  | cons kv0 rest ih =>
    obtain ⟨k0, v0⟩ := kv0
    intro kv hkv
    by_cases h0 : k0 = k
    · simp only [heapSet, if_pos h0] at hkv
      rcases List.mem_cons.mp hkv with h1 | h1
      · simp [h1, hk]
      · exact hwf kv (List.mem_cons_of_mem _ h1)
    · simp only [heapSet, if_neg h0] at hkv
      rcases List.mem_cons.mp hkv with h1 | h1
      · exact h1 ▸ hwf (k0, v0) (by simp)
      · exact ih (fun q hq => hwf q (List.mem_cons_of_mem _ hq)) kv h1

/-- **C10**.  Opening an existing file in `rb`, `ab` or `rb+` (outside a
transaction) returns the very file object stored in the Store, not a
copy: the handle's id is the stored id, nothing is allocated, the Store
tree is untouched (so two handles opened on the same path share one
buffer and cursor slot), and bytes written through an `ab` or `rb+`
handle are immediately visible at the stored file without any commit
(`ab` appends at the end; `rb+` overwrites from the start). -/
theorem c10_open_aliases_store (fs : FS) (p : Str) (fid : Nat) (fd : FileData)
    (hget : getNode (.dir fs.root) (path_parts p) = .ok (.file fid))
    (hlook : heapLookup fs.heap fid = some fd) :
    (∃ fs2, dictOpen fs p rbM false none = .ok (fs2, fid) ∧
      fs2.root = fs.root ∧ fs2.nxt = fs.nxt)
    ∧ (∃ fs2, dictOpen fs p abM false none = .ok (fs2, fid) ∧
      fs2.root = fs.root ∧ fs2.nxt = fs.nxt)
    ∧ (∃ fs2, dictOpen fs p rbpM false none = .ok (fs2, fid) ∧
      fs2.root = fs.root ∧ fs2.nxt = fs.nxt)
    ∧ (∀ bs fs2, dictOpen fs p abM false none = .ok (fs2, fid) →
        (writeHandle fs2 fid bs).root = fs.root
        ∧ getNode (.dir (writeHandle fs2 fid bs).root) (path_parts p) =
            .ok (.file fid)
        ∧ (heapLookup (writeHandle fs2 fid bs).heap fid).map (·.buf) =
            some (fd.buf ++ bs))
    ∧ (∀ bs fs2, dictOpen fs p rbpM false none = .ok (fs2, fid) →
        (writeHandle fs2 fid bs).root = fs.root
        ∧ (heapLookup (writeHandle fs2 fid bs).heap fid).map (·.buf) =
            some (bs ++ fd.buf.drop bs.length)) := by
  have hrb : dictOpen fs p rbM false none =
      .ok (⟨fs.root, heapSet fs.heap fid ⟨fd.path, fd.buf, 0⟩, fs.nxt⟩, fid) := by
    rw [dictOpen_read_stored fs p rbM fid fd (by decide) hget hlook,
      if_neg (show ¬rbM = abM by decide)]
  have hab : dictOpen fs p abM false none =
      .ok (⟨fs.root, heapSet fs.heap fid ⟨fd.path, fd.buf, fd.buf.length⟩, fs.nxt⟩, fid) := by
    rw [dictOpen_read_stored fs p abM fid fd (by decide) hget hlook,
      if_pos (show abM = abM from rfl)]
  have hrbp : dictOpen fs p rbpM false none =
      .ok (⟨fs.root, heapSet fs.heap fid ⟨fd.path, fd.buf, 0⟩, fs.nxt⟩, fid) := by
    rw [dictOpen_read_stored fs p rbpM fid fd (by decide) hget hlook,
      if_neg (show ¬rbpM = abM by decide)]
  refine ⟨⟨_, hrb, rfl, rfl⟩, ⟨_, hab, rfl, rfl⟩, ⟨_, hrbp, rfl, rfl⟩, ?_, ?_⟩
  · intro bs fs2 h2
    rw [hab] at h2
    simp only [Except.ok.injEq, Prod.mk.injEq] at h2
    obtain ⟨hfs2, -⟩ := h2
    subst hfs2
    have hl2 : heapLookup
        (heapSet fs.heap fid (⟨fd.path, fd.buf, fd.buf.length⟩ : FileData)) fid =
        some ⟨fd.path, fd.buf, fd.buf.length⟩ :=
      heapLookup_heapSet_self fs.heap fid _
    refine ⟨?_, ?_, ?_⟩
    · unfold writeHandle
      rw [hl2]
    · unfold writeHandle
      rw [hl2]
      exact hget
    · unfold writeHandle
      rw [hl2]
      rw [heapLookup_heapSet_self]
      show some ((writeBytes ⟨fd.path, fd.buf, fd.buf.length⟩ bs).buf) =
        some (fd.buf ++ bs)
      rw [writeBytes_at_end]
  · intro bs fs2 h2
    rw [hrbp] at h2
    simp only [Except.ok.injEq, Prod.mk.injEq] at h2
    obtain ⟨hfs2, -⟩ := h2
    subst hfs2
    have hl2 : heapLookup
        (heapSet fs.heap fid (⟨fd.path, fd.buf, 0⟩ : FileData)) fid =
        some ⟨fd.path, fd.buf, 0⟩ :=
      heapLookup_heapSet_self fs.heap fid _
    refine ⟨?_, ?_⟩
    · unfold writeHandle
      rw [hl2]
    · unfold writeHandle
      rw [hl2]
      rw [heapLookup_heapSet_self]
      show some ((writeBytes ⟨fd.path, fd.buf, 0⟩ bs).buf) =
        some (bs ++ fd.buf.drop bs.length)
      unfold writeBytes
      simp

/-- **C10** (witness).  The theorem at a concrete state holding the file
`/f` with two bytes. -/
theorem c10_open_aliases_store_witness :
    (getNode (.dir [("f".data, Node.file 0)]) (path_parts "/f".data) =
        .ok (.file 0)
      ∧ heapLookup [(0, (⟨"/f".data, [7, 8], 0⟩ : FileData))] 0 =
        some ⟨"/f".data, [7, 8], 0⟩)
    ∧ (∃ fs2, dictOpen ⟨[("f".data, .file 0)], [(0, ⟨"/f".data, [7, 8], 0⟩)], 1⟩
        "/f".data rbM false none = .ok (fs2, 0) ∧
      fs2.root = [("f".data, Node.file 0)] ∧ fs2.nxt = 1) := by
  refine ⟨⟨rfl, rfl⟩, ?_⟩
  exact (c10_open_aliases_store ⟨[("f".data, .file 0)], [(0, ⟨"/f".data, [7, 8], 0⟩)], 1⟩
    "/f".data 0 ⟨"/f".data, [7, 8], 0⟩ rfl rfl).1

/-- **C8**.  When `path1` resolves to a file, `cp_file(path1, path2)`
installs at `path2` a freshly allocated file whose bytes equal the
source's but whose storage is independent: the destination id is new
(distinct from the source's), mutating the destination's buffer leaves
the source's buffer unchanged and vice versa, and any existing entry at
`path2` is overwritten (the path now resolves to the new file). -/
theorem c8_cp_file_independent (fs : FS) (p1 p2 : Str) (fid1 : Nat)
    (fd1 : FileData) (fs' : FS)
    (hwf : ∀ kv ∈ fs.heap, kv.1 < fs.nxt)
    (hget : getNode (.dir fs.root) (path_parts p1) = .ok (.file fid1))
    (hlook : heapLookup fs.heap fid1 = some fd1)
    (h : dictCpFile fs p1 p2 = .ok fs') :
    fid1 ≠ fs.nxt
    ∧ getNode (.dir fs'.root) (path_parts p2) = .ok (.file fs.nxt)
    ∧ (heapLookup fs'.heap fs.nxt).map (·.buf) = some fd1.buf
    ∧ (heapLookup fs'.heap fid1).map (·.buf) = some fd1.buf
    ∧ (∀ bs, (heapLookup (writeHandle fs' fs.nxt bs).heap fid1).map (·.buf) =
        some fd1.buf)
    ∧ (∀ bs, (heapLookup (writeHandle fs' fid1 bs).heap fs.nxt).map (·.buf) =
        (heapLookup fs'.heap fs.nxt).map (·.buf)) := by
  have hne : fid1 ≠ fs.nxt :=
    Nat.ne_of_lt (hwf (fid1, fd1) (heapLookup_mem fs.heap fid1 fd1 hlook))
  have hopen : dictOpen fs p1 rbM false none =
      .ok (⟨fs.root, heapSet fs.heap fid1 ⟨fd1.path, fd1.buf, 0⟩, fs.nxt⟩, fid1) := by
    rw [dictOpen_read_stored fs p1 rbM fid1 fd1 (by decide) hget hlook,
      if_neg (show ¬rbM = abM by decide)]
  unfold dictCpFile at h
  rw [hopen] at h
  simp only at h
  rw [heapLookup_heapSet_self] at h
  simp only at h
  -- the commit of the fresh destination file
  set heapA := heapSet fs.heap fid1 (⟨fd1.path, fd1.buf, 0⟩ : FileData) with hheapA
  have hwfA : ∀ kv ∈ heapA, kv.1 < fs.nxt := by
    rw [hheapA]
    exact heapSet_keys_lt fs.heap fid1 fs.nxt _ hwf
      (hwf (fid1, fd1) (heapLookup_mem fs.heap fid1 fd1 hlook))
  unfold commitFid at h
  have hfresh : heapLookup (heapA ++ [(fs.nxt, (⟨p2, fd1.buf, 0⟩ : FileData))]) fs.nxt =
      some ⟨p2, fd1.buf, 0⟩ :=
    heapLookup_append_fresh heapA fs.nxt _ hwfA
  rw [hfresh] at h
  simp only at h
  cases hset : setNodePaths fs.root (path_parts p2) (.file fs.nxt) true with
  | error e =>
    rw [hset] at h
    cases e <;> simp at h
  | ok es =>
    rw [hset] at h
    simp only [Except.ok.injEq] at h
    subst h
    refine ⟨hne, getNode_setNodePaths fs.root (path_parts p2) _ true es hset, ?_, ?_, ?_, ?_⟩
    · rw [show (⟨es, heapA ++ [(fs.nxt, ⟨p2, fd1.buf, 0⟩)], fs.nxt + 1⟩ : FS).heap =
          heapA ++ [(fs.nxt, ⟨p2, fd1.buf, 0⟩)] from rfl, hfresh]
      rfl
    · rw [show (⟨es, heapA ++ [(fs.nxt, ⟨p2, fd1.buf, 0⟩)], fs.nxt + 1⟩ : FS).heap =
          heapA ++ [(fs.nxt, ⟨p2, fd1.buf, 0⟩)] from rfl,
        heapLookup_append_old heapA fs.nxt fid1 _ hne, hheapA, heapLookup_heapSet_self]
      rfl
    · intro bs
      unfold writeHandle
      simp only
      rw [hfresh]
      simp only
      rw [heapLookup_heapSet_ne _ fs.nxt fid1 _ (Ne.symm hne),
        heapLookup_append_old heapA fs.nxt fid1 _ hne, hheapA, heapLookup_heapSet_self]
      rfl
    · intro bs
      unfold writeHandle
      simp only
      rw [show heapLookup (heapA ++ [(fs.nxt, (⟨p2, fd1.buf, 0⟩ : FileData))]) fid1 =
          some ⟨fd1.path, fd1.buf, 0⟩ from by
        rw [heapLookup_append_old heapA fs.nxt fid1 _ hne, hheapA, heapLookup_heapSet_self]]
      simp only
      rw [heapLookup_heapSet_ne _ fid1 fs.nxt _ hne]

/-- **C8** (witness).  The theorem at a concrete state holding the file
`/a` with bytes `[1, 2]`, copied to `/b`. -/
theorem c8_cp_file_independent_witness :
    ((∀ kv ∈ [(0, (⟨"/a".data, [1, 2], 0⟩ : FileData))], kv.1 < 1)
      ∧ getNode (.dir [("a".data, Node.file 0)]) (path_parts "/a".data) =
        .ok (.file 0)
      ∧ heapLookup [(0, (⟨"/a".data, [1, 2], 0⟩ : FileData))] 0 =
        some ⟨"/a".data, [1, 2], 0⟩
      ∧ dictCpFile ⟨[("a".data, .file 0)], [(0, ⟨"/a".data, [1, 2], 0⟩)], 1⟩
          "/a".data "/b".data =
        .ok ⟨[("a".data, .file 0), ("b".data, .file 1)],
          [(0, ⟨"/a".data, [1, 2], 0⟩), (1, ⟨"/b".data, [1, 2], 0⟩)], 2⟩)
    ∧ (0 ≠ 1
      ∧ getNode (.dir [("a".data, Node.file 0), ("b".data, Node.file 1)])
          (path_parts "/b".data) = .ok (.file 1)
      ∧ (heapLookup [(0, (⟨"/a".data, [1, 2], 0⟩ : FileData)),
          (1, ⟨"/b".data, [1, 2], 0⟩)] 1).map (·.buf) = some [1, 2]
      ∧ (heapLookup [(0, (⟨"/a".data, [1, 2], 0⟩ : FileData)),
          (1, ⟨"/b".data, [1, 2], 0⟩)] 0).map (·.buf) = some [1, 2]
      ∧ (∀ bs, (heapLookup (writeHandle
          ⟨[("a".data, .file 0), ("b".data, .file 1)],
            [(0, ⟨"/a".data, [1, 2], 0⟩), (1, ⟨"/b".data, [1, 2], 0⟩)], 2⟩
          1 bs).heap 0).map (·.buf) = some [1, 2])
      ∧ (∀ bs, (heapLookup (writeHandle
          ⟨[("a".data, .file 0), ("b".data, .file 1)],
            [(0, ⟨"/a".data, [1, 2], 0⟩), (1, ⟨"/b".data, [1, 2], 0⟩)], 2⟩
          0 bs).heap 1).map (·.buf) =
        (heapLookup [(0, (⟨"/a".data, [1, 2], 0⟩ : FileData)),
          (1, ⟨"/b".data, [1, 2], 0⟩)] 1).map (·.buf))) := by
  refine ⟨⟨by simp, rfl, rfl, rfl⟩, ?_⟩
  exact c8_cp_file_independent
    ⟨[("a".data, .file 0)], [(0, ⟨"/a".data, [1, 2], 0⟩)], 1⟩
    "/a".data "/b".data 0 ⟨"/a".data, [1, 2], 0⟩
    ⟨[("a".data, .file 0), ("b".data, .file 1)],
      [(0, ⟨"/a".data, [1, 2], 0⟩), (1, ⟨"/b".data, [1, 2], 0⟩)], 2⟩
    (by simp) rfl rfl rfl

/-! ### Transaction lemmas (claim C2) -/

/-- A deferred (`in transaction`) `wb` open allocates the file on the
heap but leaves the Store tree untouched. -/
theorem dictOpen_wb_intrans (fs : FS) (p : Str) (data : Option (List Nat))
    (fs1 : FS) (fid : Nat)
    (h : dictOpen fs p wbM true data = .ok (fs1, fid)) :
    fid = fs.nxt
    ∧ fs1 = ⟨fs.root,
        fs.heap ++ [(fs.nxt, ⟨join_paths (path_parts p), data.getD [], 0⟩)],
        fs.nxt + 1⟩ := by
  unfold dictOpen at h
  have hnew : dictOpenWbNew fs (join_paths (path_parts p)) true data =
      .ok (fs1, fid) := by
    cases hres : getNode (.dir fs.root) (path_parts p) with
    | ok n =>
      cases n with
      | dir es => simp [hres] at h
      | file f0 =>
        simp only [hres] at h
        rwa [if_pos trivial] at h
    | error e =>
      cases e with
      | typeErr => simp [hres] at h
      | keyErr =>
        simp only [hres] at h
        rwa [if_neg (by decide)] at h
  unfold dictOpenWbNew at hnew
  rw [if_pos rfl] at hnew
  simp only [Except.ok.injEq, Prod.mk.injEq] at hnew
  exact ⟨hnew.2.symm, hnew.1.symm⟩

/-- Appending a fresh heap slot is invisible to `info` at every path,
provided every file id stored in the tree is below the allocation
counter. -/
theorem dictInfo_append_fresh (fs : FS) (fd0 : FileData) (n' : Nat)
    (hfids : ∀ q f0, getNode (.dir fs.root) (path_parts q) = .ok (.file f0) →
      f0 < fs.nxt) :
    ∀ q, dictInfo ⟨fs.root, fs.heap ++ [(fs.nxt, fd0)], n'⟩ q = dictInfo fs q := by
  intro q
  unfold dictInfo
  cases hres : getNode (.dir fs.root) (path_parts q) with
  | ok n =>
    cases n with
    | dir es => simp [hres]
    | file f0 =>
      simp only [hres]
      rw [heapLookup_append_old fs.heap fs.nxt f0 fd0
        (Nat.ne_of_lt (hfids q f0 hres))]
  | error e => cases e <;> simp [hres]

theorem writeHandle_root (fs : FS) (fid : Nat) (bs : List Nat) :
    (writeHandle fs fid bs).root = fs.root := by
  unfold writeHandle
  cases heapLookup fs.heap fid <;> rfl

theorem commitFid_heap (fs fs' : FS) (f : Nat) (h : commitFid fs f = .ok fs') :
    fs'.heap = fs.heap ∧ fs'.nxt = fs.nxt := by
  unfold commitFid at h
  cases hl : heapLookup fs.heap f with
  | none => rw [hl] at h; simp at h
  | some fd =>
    simp only [hl] at h
    cases hs : setNodePaths fs.root (path_parts fd.path) (.file f) true with
    | ok es =>
      simp only [hs, Except.ok.injEq] at h
      subst h
      exact ⟨rfl, rfl⟩
    | error e =>
      simp only [hs] at h
      cases e <;> simp at h

theorem commitAll_heap (l : List Nat) (fs fs' : FS)
    (h : commitAll fs l = .ok fs') : fs'.heap = fs.heap ∧ fs'.nxt = fs.nxt := by
  induction l generalizing fs with
  | nil =>
    simp only [commitAll, Except.ok.injEq] at h
    subst h
    exact ⟨rfl, rfl⟩
  | cons f rest ih =>
    simp only [commitAll] at h
    cases hc : commitFid fs f with
    | error e => rw [hc] at h; simp at h
    | ok fsm =>
      rw [hc] at h
      obtain ⟨h1, h2⟩ := commitFid_heap fs fsm f hc
      obtain ⟨h3, h4⟩ := ih fsm h
      exact ⟨h3.trans h1, h4.trans h2⟩

theorem commitAll_append_single (l : List Nat) (f : Nat) (fs fs' : FS)
    (h : commitAll fs (l ++ [f]) = .ok fs') :
    ∃ fsm, commitAll fs l = .ok fsm ∧ commitFid fsm f = .ok fs' := by
  induction l generalizing fs with
  | nil =>
    simp only [List.nil_append, commitAll] at h
    cases hc : commitFid fs f with
    | error e => rw [hc] at h; simp at h
    | ok fsm =>
      rw [hc] at h
      simp only [commitAll, Except.ok.injEq] at h
      subst h
      exact ⟨fs, rfl, hc⟩
  | cons g rest ih =>
    simp only [List.cons_append, commitAll] at h
    cases hc : commitFid fs g with
    | error e => rw [hc] at h; simp at h
    | ok fsm =>
      rw [hc] at h
      obtain ⟨fsm2, h1, h2⟩ := ih fsm h
      refine ⟨fsm2, ?_, h2⟩
      simp only [commitAll, hc]
      exact h1

/-- **C2**.  While a transaction scope is open, opening a path in `wb`
mode buffers a fresh file without touching the Store: the tree is
unchanged, `info`, `ls` and `find` observe exactly the pre-open state
(no read-your-own-writes), and writing through the handle still leaves
the tree unchanged.  The handle is recorded in the transaction's buffer,
and when the scope ends successfully the buffered file has been
committed: the path then resolves to it. -/
theorem c2_transaction_deferred_commit (t : TFS) (p : Str)
    (data : Option (List Nat)) (t' : TFS) (fid : Nat)
    (hin : t.intrans = true)
    (hwf : ∀ kv ∈ t.fs.heap, kv.1 < t.fs.nxt)
    (hfids : ∀ q f0, getNode (.dir t.fs.root) (path_parts q) = .ok (.file f0) →
      f0 < t.fs.nxt)
    (hv : ∀ g ∈ path_parts p, g ≠ [])
    (h : topen t p wbM data = .ok (t', fid)) :
    t'.fs.root = t.fs.root
    ∧ (∀ q, dictInfo t'.fs q = dictInfo t.fs q)
    ∧ (∀ q, dictLs t'.fs q = dictLs t.fs q)
    ∧ findFiles t'.fs = findFiles t.fs
    ∧ (∀ bs, (writeHandle t'.fs fid bs).root = t.fs.root)
    ∧ t'.pending = t.pending ++ [fid]
    ∧ (∀ t2, endTransaction t' = .ok t2 →
        getNode (.dir t2.fs.root) (path_parts p) = .ok (.file fid)) := by
  obtain ⟨fs1, hop, ht'⟩ : ∃ fs1, dictOpen t.fs p wbM true data = .ok (fs1, fid) ∧
      t' = ⟨fs1, t.intrans, t.pending ++ [fid]⟩ := by
    unfold topen at h
    rw [hin] at h
    cases hop : dictOpen t.fs p wbM true data with
    | error e => rw [hop] at h; simp at h
    | ok r =>
      obtain ⟨fs1, fid1⟩ := r
      rw [hop] at h
      simp only [Except.ok.injEq, Prod.mk.injEq] at h
      obtain ⟨h1, h2⟩ := h
      subst h2
      refine ⟨fs1, rfl, ?_⟩
      rw [← h1, hin]
      simp [wbM]
  obtain ⟨hfid, hfs1⟩ := dictOpen_wb_intrans t.fs p data fs1 fid hop
  subst hfid
  subst hfs1
  subst ht'
  refine ⟨rfl, dictInfo_append_fresh t.fs _ _ hfids, fun q => rfl, rfl,
    fun bs => writeHandle_root _ _ bs, rfl, ?_⟩
  intro t2 hend
  unfold endTransaction at hend
  cases hca : commitAll
      (⟨t.fs.root,
        t.fs.heap ++ [(t.fs.nxt, ⟨join_paths (path_parts p), data.getD [], 0⟩)],
        t.fs.nxt + 1⟩ : FS) (t.pending ++ [t.fs.nxt]) with
  | error e => rw [hca] at hend; simp [Except.map] at hend
  | ok fsEnd =>
    rw [hca] at hend
    simp only [Except.map, Except.ok.injEq] at hend
    subst hend
    obtain ⟨fsm, h1, h2⟩ := commitAll_append_single _ _ _ _ hca
    obtain ⟨hheapm, -⟩ := commitAll_heap _ _ _ h1
    unfold commitFid at h2
    rw [hheapm] at h2
    rw [show (⟨t.fs.root,
        t.fs.heap ++ [(t.fs.nxt, ⟨join_paths (path_parts p), data.getD [], 0⟩)],
        t.fs.nxt + 1⟩ : FS).heap =
        t.fs.heap ++ [(t.fs.nxt, ⟨join_paths (path_parts p), data.getD [], 0⟩)]
      from rfl, heapLookup_append_fresh t.fs.heap t.fs.nxt _ hwf] at h2
    simp only at h2
    rw [parts_of_parts p hv] at h2
    cases hs : setNodePaths fsm.root (path_parts p) (.file t.fs.nxt) true with
    | error e =>
      rw [hs] at h2
      cases e <;> simp at h2
    | ok es =>
      rw [hs] at h2
      simp only [Except.ok.injEq] at h2
      rw [← h2]
      exact getNode_setNodePaths fsm.root (path_parts p) _ true es hs

/-- **C2** (witness).  The theorem at the empty filesystem inside a
fresh transaction, opening `/afile` for write. -/
theorem c2_transaction_deferred_commit_witness :
    ((⟨⟨[], [], 0⟩, true, []⟩ : TFS).intrans = true
      ∧ (∀ kv ∈ (⟨⟨[], [], 0⟩, true, []⟩ : TFS).fs.heap,
          kv.1 < (⟨⟨[], [], 0⟩, true, []⟩ : TFS).fs.nxt)
      ∧ (∀ q f0, getNode (.dir (⟨⟨[], [], 0⟩, true, []⟩ : TFS).fs.root)
          (path_parts q) = .ok (.file f0) → f0 < 0)
      ∧ (∀ g ∈ path_parts "/afile".data, g ≠ [])
      ∧ topen (⟨⟨[], [], 0⟩, true, []⟩ : TFS) "/afile".data wbM none =
        .ok (⟨⟨[], [(0, ⟨"/afile".data, [], 0⟩)], 1⟩, true, [0]⟩, 0))
    ∧ ((⟨⟨[], [(0, ⟨"/afile".data, [], 0⟩)], 1⟩, true, [0]⟩ : TFS).fs.root =
        (⟨⟨[], [], 0⟩, true, []⟩ : TFS).fs.root
      ∧ (∀ q, dictInfo (⟨⟨[], [(0, ⟨"/afile".data, [], 0⟩)], 1⟩, true, [0]⟩ : TFS).fs q =
          dictInfo (⟨⟨[], [], 0⟩, true, []⟩ : TFS).fs q)
      ∧ (∀ q, dictLs (⟨⟨[], [(0, ⟨"/afile".data, [], 0⟩)], 1⟩, true, [0]⟩ : TFS).fs q =
          dictLs (⟨⟨[], [], 0⟩, true, []⟩ : TFS).fs q)
      ∧ findFiles (⟨⟨[], [(0, ⟨"/afile".data, [], 0⟩)], 1⟩, true, [0]⟩ : TFS).fs =
          findFiles (⟨⟨[], [], 0⟩, true, []⟩ : TFS).fs
      ∧ (∀ bs, (writeHandle
          (⟨⟨[], [(0, ⟨"/afile".data, [], 0⟩)], 1⟩, true, [0]⟩ : TFS).fs 0 bs).root =
          (⟨⟨[], [], 0⟩, true, []⟩ : TFS).fs.root)
      ∧ (⟨⟨[], [(0, ⟨"/afile".data, [], 0⟩)], 1⟩, true, [0]⟩ : TFS).pending =
          (⟨⟨[], [], 0⟩, true, []⟩ : TFS).pending ++ [0]
      ∧ (∀ t2, endTransaction
          (⟨⟨[], [(0, ⟨"/afile".data, [], 0⟩)], 1⟩, true, [0]⟩ : TFS) = .ok t2 →
          getNode (.dir t2.fs.root) (path_parts "/afile".data) =
            .ok (.file 0))) := by
  have hfids : ∀ q f0, getNode (.dir (⟨⟨[], [], 0⟩, true, []⟩ : TFS).fs.root)
      (path_parts q) = .ok (.file f0) → f0 < 0 := by
    intro q f0 hq
    cases hpp : path_parts q with
    | nil => rw [hpp] at hq; simp [getNode] at hq
    | cons k' ks => rw [hpp] at hq; simp [getNode, lookupE] at hq
  refine ⟨⟨rfl, by simp, hfids, by decide, rfl⟩, ?_⟩
  exact c2_transaction_deferred_commit ⟨⟨[], [], 0⟩, true, []⟩ "/afile".data none
    ⟨⟨[], [(0, ⟨"/afile".data, [], 0⟩)], 1⟩, true, [0]⟩ 0
    rfl (by simp) hfids (by decide) rfl

/-! ### Append-mode open lemmas (claim C3) -/

theorem appendLowerLoop_firstHit (p : Str) (lowers : List (Str → InfoOut)) :
    (firstHit p lowers = some .dirI → appendLowerLoop p lowers = .isADir)
    ∧ (firstHit p lowers = some .fileI → appendLowerLoop p lowers = .readOnly)
    ∧ (firstHit p lowers = none → appendLowerLoop p lowers = .openUpper) := by
  induction lowers with
  | nil =>
    exact ⟨fun h => by simp [firstHit] at h, fun h => by simp [firstHit] at h,
      fun _ => rfl⟩
  | cons f rest ih =>
    cases hf : f p with
    | dirI =>
      refine ⟨fun _ => ?_, fun h => ?_, fun h => ?_⟩
      · simp [appendLowerLoop, hf]
      · simp [firstHit, hf] at h
      · simp [firstHit, hf] at h
    | fileI =>
      refine ⟨fun h => ?_, fun _ => ?_, fun h => ?_⟩
      · simp [firstHit, hf] at h
      · simp [appendLowerLoop, hf]
      · simp [firstHit, hf] at h
    | errNF =>
      refine ⟨fun h => ?_, fun h => ?_, fun h => ?_⟩
      · simp only [appendLowerLoop, hf]
        exact ih.1 (by simpa [firstHit, hf] using h)
      · simp only [appendLowerLoop, hf]
        exact ih.2.1 (by simpa [firstHit, hf] using h)
      · simp only [appendLowerLoop, hf]
        exact ih.2.2 (by simpa [firstHit, hf] using h)
    | errSkip =>
      refine ⟨fun h => ?_, fun h => ?_, fun h => ?_⟩
      · simp only [appendLowerLoop, hf]
        exact ih.1 (by simpa [firstHit, hf] using h)
      · simp only [appendLowerLoop, hf]
        exact ih.2.1 (by simpa [firstHit, hf] using h)
      · simp only [appendLowerLoop, hf]
        exact ih.2.2 (by simpa [firstHit, hf] using h)
    | errOther =>
      refine ⟨fun h => ?_, fun h => ?_, fun h => ?_⟩
      · simp [firstHit, hf] at h
      · simp [firstHit, hf] at h
      · simp [firstHit, hf] at h

/-- **C3** (counterexample).  The claim asserts that when no backend has
the path, append-mode open creates a fresh file on the upper backend.
With the repository's own `DictFS` as upper backend, the fall-through
`upper_fs._open(path, "ab")` raises FileNotFoundError for a missing path
(`DictFS._open` re-raises ENOENT for the `ab` mode), so nothing is
created: the overlay open fails ENOENT. -/
theorem c3_counterexample :
    dictInfo emptyFS "/x".data = .error .enoent
    ∧ overlayOpen [emptyFS] "/x".data abM = .error .enoent :=
  ⟨rfl, rfl⟩

/-- **C3** (amended).  For every overlay and path, opening in append mode
(`ab`): if the upper backend reports the path as a directory the call
fails IsADirectory; if the upper backend reports it missing, the lower
backends are consulted in order and the first one that has the path
decides — a directory fails IsADirectory, an existing file fails
ReadOnly; if no backend has the path, the call *falls through to the
upper backend's own append-mode open* — which creates a fresh file only
when that backend's append-open creates on missing paths; for a `DictFS`
upper backend it instead fails NotFound. -/
theorem c3_append_open_amended (upper : Str → InfoOut)
    (lowers : List (Str → InfoOut)) (p : Str) :
    (upper p = .dirI → appendProbe upper lowers p = .isADir)
    ∧ (upper p = .errNF →
        (firstHit p lowers = some .dirI → appendProbe upper lowers p = .isADir)
        ∧ (firstHit p lowers = some .fileI → appendProbe upper lowers p = .readOnly)
        ∧ (firstHit p lowers = none → appendProbe upper lowers p = .openUpper))
    ∧ (∀ q : Str, getNode (.dir emptyFS.root) (path_parts q) = .error .keyErr →
        overlayOpen [emptyFS] q abM = .error .enoent) := by
  refine ⟨?_, ?_, ?_⟩
  · intro h
    unfold appendProbe
    rw [h]
  · intro h
    unfold appendProbe
    rw [h]
    exact appendLowerLoop_firstHit p lowers
  · intro q hq
    have hinfo : dictInfo emptyFS q = .error .enoent := by
      simp only [dictInfo, hq]
    have hopen : dictOpen emptyFS q abM false none = .error .enoent := by
      simp only [dictOpen, hq]
      rw [if_pos (by simp)]
    simp only [overlayOpen, if_neg (show ¬containsSub rbM abM = true by decide),
      if_pos (show containsSub abM abM = true by decide), hinfo,
      overlayAppendCheck, hopen]

/-- **C3** (witness).  Upper missing, one lower backend holding a file:
ReadOnly; and the DictFS-upper fall-through at `/x`. -/
theorem c3_append_open_amended_witness :
    ((fun _ : Str => InfoOut.errNF) "x".data = .errNF
      ∧ firstHit "x".data [fun _ => InfoOut.fileI] = some .fileI
      ∧ appendProbe (fun _ => InfoOut.errNF) [fun _ => InfoOut.fileI] "x".data =
        .readOnly)
    ∧ (getNode (.dir emptyFS.root) (path_parts "/x".data) = .error .keyErr
      ∧ overlayOpen [emptyFS] "/x".data abM = .error .enoent) := by
  refine ⟨⟨rfl, rfl, ?_⟩, rfl, ?_⟩
  · exact ((c3_append_open_amended (fun _ => InfoOut.errNF)
      [fun _ => InfoOut.fileI] "x".data).2.1 rfl).2.1 rfl
  · exact (c3_append_open_amended (fun _ => InfoOut.errNF) [] "x".data).2.2
      "/x".data rfl

/-- **C4** (counterexample).  The claim includes `rb+` among the
write-oriented modes that mutate only the upper backend.  But
`OverlayFileSystem._open` tests `"rb" in mode`, which is true for
`"rb+"`: the open is dispatched to the *first backend holding the path*.
With the path present only on the lower backend, the overlay returns a
writable handle served by backend index 1, and writing through it
changes the lower backend's stored file. -/
theorem c4_counterexample :
    overlayOpen [emptyFS, ⟨[("f".data, .file 0)], [(0, ⟨"/f".data, [], 0⟩)], 1⟩]
      "/f".data rbpM =
      .ok ([emptyFS, ⟨[("f".data, .file 0)], [(0, ⟨"/f".data, [], 0⟩)], 1⟩], 1, 0)
    ∧ (overlayWriteHandle
        [emptyFS, ⟨[("f".data, .file 0)], [(0, ⟨"/f".data, [], 0⟩)], 1⟩]
        1 0 [42]).map (fun fs => (heapLookup fs.heap 0).map (·.buf)) =
      [none, some [42]] :=
  ⟨rfl, rfl⟩

/-- **C4** (amended).  For every overlay of `DictFS` backends:
`mkdir`, `makedirs`, `rmdir`, file removal, recursive remove, and open
in the modes `wb` and `ab` mutate only the upper backend — every lower
backend's state is unchanged, including after writing through the
returned handle.  Open in `rb+` (like `rb`) is instead dispatched by the
`"rb" in mode` test to the first backend holding the path, so an `rb+`
handle can be served by — and its writes mutate — a lower backend. -/
theorem c4_write_targets_upper_amended (upper : FS) (lowers : List FS) (p : Str) :
    (∀ cp res, overlayMkdir (upper :: lowers) p cp = .ok res →
      ∃ u, res = u :: lowers)
    ∧ (∀ eo res, overlayMakedirs (upper :: lowers) p eo = .ok res →
      ∃ u, res = u :: lowers)
    ∧ (∀ res, overlayRmdir (upper :: lowers) p = .ok res → ∃ u, res = u :: lowers)
    ∧ (∀ res, overlayRmFile (upper :: lowers) p = .ok res → ∃ u, res = u :: lowers)
    ∧ (∀ res, overlayRmRecursive (upper :: lowers) p = .ok res →
      ∃ u, res = u :: lowers)
    ∧ (∀ m, m = wbM ∨ m = abM →
        ∀ res i fid, overlayOpen (upper :: lowers) p m = .ok (res, i, fid) →
          i = 0 ∧ ∃ u, res = u :: lowers ∧
            ∀ bs, overlayWriteHandle res 0 fid bs = writeHandle u fid bs :: lowers) := by
  refine ⟨?_, ?_, ?_, ?_, ?_, ?_⟩
  · intro cp res h
    simp only [overlayMkdir] at h
    by_cases h1 : overlayExists (upper :: lowers) p = true
    · rw [if_pos h1] at h
      simp at h
    · rw [if_neg h1] at h
      by_cases h2 : cp = false ∧ overlayIsdir (upper :: lowers) (parentPath p) = false
      · rw [if_pos h2] at h
        simp at h
      · rw [if_neg h2] at h
        cases hm : dictMkdir upper p true with
        | error e => rw [hm] at h; simp [Except.map] at h
        | ok u =>
          rw [hm] at h
          simp only [Except.map, Except.ok.injEq] at h
          exact ⟨u, h.symm⟩
  · intro eo res h
    simp only [overlayMakedirs] at h
    cases hm : dictMakedirs upper p eo with
    | error e => rw [hm] at h; simp [Except.map] at h
    | ok u =>
      rw [hm] at h
      simp only [Except.map, Except.ok.injEq] at h
      exact ⟨u, h.symm⟩
  · intro res h
    simp only [overlayRmdir] at h
    cases hm : dictRmdir upper p with
    | error e => rw [hm] at h; simp [Except.map] at h
    | ok u =>
      rw [hm] at h
      simp only [Except.map, Except.ok.injEq] at h
      exact ⟨u, h.symm⟩
  · intro res h
    simp only [overlayRmFile] at h
    cases hm : dictRmFile upper p with
    | error e => rw [hm] at h; simp [Except.map] at h
    | ok u =>
      rw [hm] at h
      simp only [Except.map, Except.ok.injEq] at h
      exact ⟨u, h.symm⟩
  · intro res h
    simp only [overlayRmRecursive] at h
    cases hm : dictRmRecursive upper p with
    | error e => rw [hm] at h; simp [Except.map] at h
    | ok u =>
      rw [hm] at h
      simp only [Except.map, Except.ok.injEq] at h
      exact ⟨u, h.symm⟩
  · intro m hm res i fid h
    have hdone : ∀ u1, res = u1 :: lowers → i = 0 →
        i = 0 ∧ ∃ u, res = u :: lowers ∧
          ∀ bs, overlayWriteHandle res 0 fid bs = writeHandle u fid bs :: lowers := by
      intro u1 hres hi
      subst hres
      exact ⟨hi, u1, rfl, fun bs => rfl⟩
    rcases hm with hm | hm
    · subst hm
      simp only [overlayOpen] at h
      rw [if_neg (by decide)] at h
      simp only [if_neg (show ¬containsSub abM wbM = true by decide)] at h
      cases ho : dictOpen upper p wbM false none with
      | error e => simp [ho] at h
      | ok r =>
        simp only [ho] at h
        simp only [Except.ok.injEq, Prod.mk.injEq] at h
        exact hdone r.1 h.1.symm h.2.1.symm
    · subst hm
      simp only [overlayOpen] at h
      rw [if_neg (by decide)] at h
      simp only [if_pos (show containsSub abM abM = true by decide)] at h
      cases hc : (match dictInfo upper p with
        | .ok (.dirInfo _) => Except.error Err.eisdir
        | .ok (.fileInfo _ _ _) => Except.ok ()
        | .error Err.enoent => overlayAppendCheck lowers p
        | .error e => Except.error e) with
      | error e => simp only [hc] at h; simp at h
      | ok u0 =>
        simp only [hc] at h
        cases ho : dictOpen upper p abM false none with
        | error e => simp [ho] at h
        | ok r =>
          simp only [ho] at h
          simp only [Except.ok.injEq, Prod.mk.injEq] at h
          exact hdone r.1 h.1.symm h.2.1.symm

/-- A sample lower backend holding the file `/f` with an empty buffer. -/
def sampleLower : FS := ⟨[("f".data, .file 0)], [(0, ⟨"/f".data, [], 0⟩)], 1⟩

/-- **C4** (witness).  The amended theorem at a concrete overlay:
`makedirs` leaves the lower backend untouched, and a `wb` open is served
by the upper backend. -/
theorem c4_write_targets_upper_amended_witness :
    (overlayMakedirs [emptyFS, sampleLower] "/d".data false =
        .ok [⟨[("d".data, .dir [])], [], 0⟩, sampleLower]
      ∧ ∃ u : FS, ([⟨[("d".data, .dir [])], [], 0⟩, sampleLower] : List FS) =
        u :: [sampleLower])
    ∧ (overlayOpen [emptyFS, sampleLower] "/x".data wbM =
        .ok ([⟨[("x".data, .file 0)], [(0, ⟨"/x".data, [], 0⟩)], 1⟩, sampleLower],
          0, 0)
      ∧ ((0 : Nat) = 0 ∧ ∃ u : FS,
          ([⟨[("x".data, .file 0)], [(0, ⟨"/x".data, [], 0⟩)], 1⟩, sampleLower] :
            List FS) = u :: [sampleLower] ∧
          ∀ bs, overlayWriteHandle
            ([⟨[("x".data, .file 0)], [(0, ⟨"/x".data, [], 0⟩)], 1⟩, sampleLower] :
              List FS) 0 0 bs =
            writeHandle u 0 bs :: [sampleLower])) := by
  refine ⟨⟨rfl, ?_⟩, rfl, ?_⟩
  · exact (c4_write_targets_upper_amended emptyFS [sampleLower] "/d".data).2.1
      false _ rfl
  · exact (c4_write_targets_upper_amended emptyFS [sampleLower] "/x".data).2.2.2.2.2
      wbM (Or.inl rfl) _ 0 0 rfl

/-! ### Sorting and deduplication lemmas (claim C7) -/

theorem strLe_total (a b : Str) : strLe a b = true ∨ strLe b a = true := by
  induction a generalizing b with
  | nil => exact Or.inl rfl
  | cons x as ih =>
    cases b with
    | nil => exact Or.inr rfl
    | cons y bs =>
      by_cases hxy : x = y
      · subst hxy
        rcases ih bs with h | h
        · exact Or.inl (by simp [strLe, h])
        · exact Or.inr (by simp [strLe, h])
      · rcases lt_trichotomy x y with hlt | heq | hgt
        · exact Or.inl (by simp [strLe, hxy, hlt])
        · exact absurd heq hxy
        · exact Or.inr (by simp [strLe, Ne.symm hxy, hgt])

theorem strLe_trans (a b c : Str) (hab : strLe a b = true)
    (hbc : strLe b c = true) : strLe a c = true := by
  induction a generalizing b c with
  | nil => rfl
  | cons x as ih =>
    cases b with
    | nil => simp [strLe] at hab
    | cons y bs =>
      cases c with
      | nil => simp [strLe] at hbc
      | cons z cs =>
        by_cases hxy : x = y <;> by_cases hyz : y = z
        · subst hxy; subst hyz
          simp only [strLe, if_pos rfl] at hab hbc ⊢
          exact ih bs cs hab hbc
        · subst hxy
          simp only [strLe, if_pos rfl] at hab
          simp only [strLe, if_neg hyz] at hbc ⊢
          exact hbc
        · subst hyz
          simp only [strLe, if_neg hxy] at hab ⊢
          exact hab
        · simp only [strLe, if_neg hxy] at hab
          simp only [strLe, if_neg hyz] at hbc
          have hlt : x < z := lt_trans (of_decide_eq_true hab) (of_decide_eq_true hbc)
          have hxz : x ≠ z := ne_of_lt hlt
          simp [strLe, hxz, hlt]

instance : IsTotal (Str × LsEntry) entLe where
  total a b := strLe_total a.1 b.1

instance : IsTrans (Str × LsEntry) entLe where
  trans a b c := strLe_trans a.1 b.1 c.1

theorem lookupN_append_single (acc : List (Str × LsEntry)) (k n : Str)
    (v : LsEntry) :
    lookupN (acc ++ [(k, v)]) n =
      (lookupN acc n).or (if k = n then some v else none) := by
  induction acc with
  | nil => simp [lookupN]
  | cons kv rest ih =>
    obtain ⟨k0, v0⟩ := kv
    by_cases h0 : k0 = n
    · simp [lookupN, h0]
    · simp [lookupN, h0, ih]

theorem lookupN_dedupIns (init : List (Str × LsEntry)) (e : LsEntry) (n : Str) :
    lookupN (dedupIns init e) n =
      (lookupN init n).or
        (if stripName e.name = n then some (normEntry e) else none) := by
  unfold dedupIns
  by_cases hk : (lookupN init (stripName e.name)).isSome
  · rw [if_pos hk]
    by_cases hn : stripName e.name = n
    · subst hn
      obtain ⟨v, hv⟩ := Option.isSome_iff_exists.mp hk
      simp [hv]
    · simp [hn]
  · rw [if_neg hk]
    rw [lookupN_append_single]

theorem lookupN_foldl_dedup (listing : List LsEntry)
    (init : List (Str × LsEntry)) (n : Str) :
    lookupN (listing.foldl dedupIns init) n =
      (lookupN init n).or
        ((listing.map normEntry).find? (fun e => e.name = n)) := by
  induction listing generalizing init with
  | nil => simp [lookupN]
  | cons e rest ih =>
    simp only [List.foldl_cons, List.map_cons]
    rw [ih]
    rw [lookupN_dedupIns]
    by_cases hn : stripName e.name = n
    · have hpred : ((normEntry e).name = n) = True := by
        simp [normEntry, hn]
      rw [List.find?_cons_of_pos _ (by simp [normEntry, hn])]
      obtain hinit | ⟨v, hv⟩ := Option.eq_none_or_eq_some (lookupN init n)
      · simp [hinit, hn]
      · simp [hv]
    · rw [List.find?_cons_of_neg _ (by simp [normEntry, hn])]
      obtain hinit | ⟨v, hv⟩ := Option.eq_none_or_eq_some (lookupN init n)
      · simp [hinit, hn]
      · simp [hv]

theorem lookupN_eq_none_iff (acc : List (Str × LsEntry)) (k : Str) :
    lookupN acc k = none ↔ k ∉ acc.map Prod.fst := by
  induction acc with
  | nil => simp [lookupN]
  | cons kv rest ih =>
    obtain ⟨k0, v0⟩ := kv
    by_cases h0 : k0 = k
    · subst h0
      simp [lookupN]
    · simp [lookupN, h0, ih, Ne.symm h0]

theorem dedup_names_eq_keys (listing : List LsEntry)
    (init : List (Str × LsEntry)) (hinit : ∀ kv ∈ init, kv.2.name = kv.1) :
    ∀ kv ∈ listing.foldl dedupIns init, kv.2.name = kv.1 := by
  induction listing generalizing init with
  | nil => exact hinit
  | cons e rest ih =>
    simp only [List.foldl_cons]
    refine ih (dedupIns init e) ?_
    intro kv hkv
    unfold dedupIns at hkv
    by_cases hk : (lookupN init (stripName e.name)).isSome
    · rw [if_pos hk] at hkv
      exact hinit kv hkv
    · rw [if_neg hk] at hkv
      rcases List.mem_append.mp hkv with h1 | h1
      · exact hinit kv h1
      · simp only [List.mem_singleton] at h1
        subst h1
        simp [normEntry]

theorem dedup_keys_nodup (listing : List LsEntry)
    (init : List (Str × LsEntry)) (hinit : (init.map Prod.fst).Nodup) :
    ((listing.foldl dedupIns init).map Prod.fst).Nodup := by
  induction listing generalizing init with
  | nil => exact hinit
  | cons e rest ih =>
    simp only [List.foldl_cons]
    refine ih (dedupIns init e) ?_
    unfold dedupIns
    by_cases hk : (lookupN init (stripName e.name)).isSome
    · rw [if_pos hk]
      exact hinit
    · rw [if_neg hk]
      have hmem : stripName e.name ∉ init.map Prod.fst := by
        rw [← lookupN_eq_none_iff]
        exact Option.not_isSome_iff_eq_none.mp hk
      rw [List.map_append, List.nodup_append]
      refine ⟨hinit, by simp, ?_⟩
      intro a ha hb
      simp only [List.map_cons, List.map_nil, List.mem_singleton] at hb
      subst hb
      exact hmem ha

theorem find?_map_snd_eq_lookupN (out : List (Str × LsEntry)) (n : Str)
    (hinv : ∀ kv ∈ out, kv.2.name = kv.1) :
    (out.map (·.2)).find? (fun e => e.name = n) = lookupN out n := by
  induction out with
  | nil => simp [lookupN]
  | cons kv rest ih =>
    obtain ⟨k, v⟩ := kv
    have hv : v.name = k := hinv (k, v) (by simp)
    by_cases hk : k = n
    · subst hk
      rw [List.map_cons, List.find?_cons_of_pos _ (by simp [hv])]
      simp [lookupN]
    · rw [List.map_cons, List.find?_cons_of_neg _ (by simp [hv, hk])]
      simp only [lookupN, if_neg hk]
      exact ih (fun q hq => hinv q (List.mem_cons_of_mem _ hq))

theorem filter_name_length_le_one (out : List (Str × LsEntry)) (n : Str)
    (hinv : ∀ kv ∈ out, kv.2.name = kv.1) (hnd : (out.map Prod.fst).Nodup) :
    ((out.map (·.2)).filter (fun e => e.name = n)).length ≤ 1 := by
  induction out with
  | nil => simp
  | cons kv rest ih =>
    obtain ⟨k, v⟩ := kv
    have hv : v.name = k := hinv (k, v) (by simp)
    simp only [List.map_cons, List.nodup_cons] at hnd
    rw [List.map_cons]
    by_cases hk : v.name = n
    · rw [List.filter_cons_of_pos (by simp [hk])]
      have hnil : (rest.map (·.2)).filter (fun e => e.name = n) = [] := by
        rw [List.filter_eq_nil_iff]
        intro e he
        obtain ⟨⟨k2, v2⟩, hmem, hv2⟩ := List.mem_map.mp he
        have hname : v2.name = k2 := hinv (k2, v2) (List.mem_cons_of_mem _ hmem)
        subst hv2
        simp only [hname, decide_eq_true_eq]
        intro hcontra
        refine hnd.1 ?_
        have hkk : k = k2 := by rw [← hv, hk, hcontra]
        rw [hkk]
        exact List.mem_map.mpr ⟨(k2, v2), hmem, rfl⟩
      rw [hnil]
      simp
    · rw [List.filter_cons_of_neg (by simp [hk])]
      exact ih (fun q hq => hinv q (List.mem_cons_of_mem _ hq)) hnd.2

theorem find?_eq_of_perm_of_unique {α : Type} (pred : α → Bool) (l l' : List α)
    (hperm : l.Perm l') (huni : (l.filter pred).length ≤ 1) :
    l.find? pred = l'.find? pred := by
  have hp : (l.filter pred).Perm (l'.filter pred) := hperm.filter pred
  cases hfil : l.filter pred with
  | nil =>
    rw [hfil] at hp
    have hfil' : l'.filter pred = [] := hp.symm.eq_nil
    have h1 : l.find? pred = none := by
      rw [List.find?_eq_none]
      intro x hx hpx
      have hmem : x ∈ l.filter pred := List.mem_filter.mpr ⟨hx, hpx⟩
      rw [hfil] at hmem
      simp at hmem
    have h2 : l'.find? pred = none := by
      rw [List.find?_eq_none]
      intro x hx hpx
      have hmem : x ∈ l'.filter pred := List.mem_filter.mpr ⟨hx, hpx⟩
      rw [hfil'] at hmem
      simp at hmem
    rw [h1, h2]
  | cons v vs =>
    have hvs : vs = [] := by
      rw [hfil] at huni
      simp only [List.length_cons] at huni
      exact List.length_eq_zero.mp (by omega)
    subst hvs
    rw [hfil] at hp
    have hfil' : l'.filter pred = [v] := by
      obtain ⟨a, ha⟩ := List.length_eq_one.mp hp.length_eq.symm
      have hv : v ∈ l'.filter pred := hp.mem_iff.mp (by simp)
      rw [ha] at hv ⊢
      simp only [List.mem_singleton] at hv
      rw [hv]
    have hvl : v ∈ l ∧ pred v = true := by
      have hmem : v ∈ l.filter pred := by rw [hfil]; simp
      exact ⟨List.mem_of_mem_filter hmem, List.of_mem_filter hmem⟩
    have hvl' : v ∈ l' ∧ pred v = true := by
      have hmem : v ∈ l'.filter pred := by rw [hfil']; simp
      exact ⟨List.mem_of_mem_filter hmem, List.of_mem_filter hmem⟩
    have h1 : l.find? pred = some v := by
      obtain ⟨w, hw⟩ := Option.isSome_iff_exists.mp
        (List.find?_isSome.mpr ⟨v, hvl.1, hvl.2⟩)
      have hwmem : w ∈ l.filter pred :=
        List.mem_filter.mpr ⟨List.mem_of_find?_eq_some hw, List.find?_some hw⟩
      rw [hfil] at hwmem
      simp only [List.mem_singleton] at hwmem
      rw [hw, hwmem]
    have h2 : l'.find? pred = some v := by
      obtain ⟨w, hw⟩ := Option.isSome_iff_exists.mp
        (List.find?_isSome.mpr ⟨v, hvl'.1, hvl'.2⟩)
      have hwmem : w ∈ l'.filter pred :=
        List.mem_filter.mpr ⟨List.mem_of_find?_eq_some hw, List.find?_some hw⟩
      rw [hfil'] at hwmem
      simp only [List.mem_singleton] at hwmem
      rw [hw, hwmem]
    rw [h1, h2]

/-- **C7**.  `OverlayFileSystem.ls(path, detail=True)`: whenever every
backend either lists successfully or raises NotFound/Unsupported (which
are skipped), the overlay listing is the union of the successful
per-backend listings deduplicated by normalized name — for every name the
returned entry is the *first* occurrence in backend order (an entry in an
earlier backend masks a same-named entry in a later one) — and the output
is sorted by name with no duplicate names.  In particular, on two
backends with distinct files it returns the sorted union, and for a
same-named entry the upper backend's version is returned. -/
theorem c7_overlay_ls (fses : List (Str → LsOut)) (p : Str)
    (listing : List LsEntry) (h : gatherListings p fses = .ok listing) :
    (∃ res, overlayLsDetail fses p = .ok res
      ∧ res.Pairwise (fun a b => strLe a.name b.name = true)
      ∧ (res.map (·.name)).Nodup
      ∧ (∀ n, res.find? (fun e => e.name = n) =
          (listing.map normEntry).find? (fun e => e.name = n)))
    ∧ overlayLsDetail
        [fun _ => LsOut.ok [⟨"/b".data, 10⟩], fun _ => LsOut.ok [⟨"/a".data, 20⟩]]
        "/".data = .ok [⟨"a".data, 20⟩, ⟨"b".data, 10⟩]
    ∧ overlayLsDetail
        [fun _ => LsOut.ok [⟨"/a".data, 10⟩], fun _ => LsOut.ok [⟨"/a".data, 20⟩]]
        "/".data = .ok [⟨"a".data, 10⟩] := by
  refine ⟨?_, rfl, rfl⟩
  have hinvOut : ∀ kv ∈ listing.foldl dedupIns [], kv.2.name = kv.1 :=
    dedup_names_eq_keys listing [] (by simp)
  have hnd : ((listing.foldl dedupIns []).map Prod.fst).Nodup :=
    dedup_keys_nodup listing [] (by simp)
  have hperm : ((listing.foldl dedupIns []).insertionSort entLe).Perm
      (listing.foldl dedupIns []) :=
    List.perm_insertionSort entLe _
  have hinvS : ∀ kv ∈ (listing.foldl dedupIns []).insertionSort entLe,
      kv.2.name = kv.1 := fun kv hkv => hinvOut kv (hperm.mem_iff.mp hkv)
  refine ⟨((listing.foldl dedupIns []).insertionSort entLe).map (·.2), ?_, ?_, ?_, ?_⟩
  · unfold overlayLsDetail
    rw [h]
    rfl
  · rw [List.pairwise_map]
    have hsorted : ((listing.foldl dedupIns []).insertionSort entLe).Pairwise entLe :=
      List.sorted_insertionSort entLe _
    refine hsorted.imp_of_mem ?_
    intro a b ha hb hab
    rw [hinvS a ha, hinvS b hb]
    exact hab
  · rw [List.map_map]
    have heq : ((listing.foldl dedupIns []).insertionSort entLe).map
        ((fun e : LsEntry => e.name) ∘ (fun x => x.2)) =
        ((listing.foldl dedupIns []).insertionSort entLe).map Prod.fst :=
      List.map_congr_left (fun a ha => hinvS a ha)
    rw [heq]
    exact ((hperm.map Prod.fst).nodup_iff).mpr hnd
  · intro n
    have hpermV : (((listing.foldl dedupIns []).insertionSort entLe).map (·.2)).Perm
        ((listing.foldl dedupIns []).map (·.2)) := hperm.map _
    have huni := filter_name_length_le_one (listing.foldl dedupIns []) n hinvOut hnd
    rw [find?_eq_of_perm_of_unique (fun e => e.name = n) _ _ hpermV
      (by rw [(hpermV.filter _).length_eq]; exact huni)]
    rw [find?_map_snd_eq_lookupN _ n hinvOut]
    rw [lookupN_foldl_dedup listing [] n]
    rfl

/-- **C7** (witness).  The theorem applied to two concrete backends with
one masked name and one distinct name each. -/
theorem c7_overlay_ls_witness :
    gatherListings "/".data
        [fun _ => LsOut.ok [⟨"/x".data, 1⟩, ⟨"/a".data, 2⟩],
          fun _ => LsOut.ok [⟨"/a".data, 3⟩, ⟨"/b".data, 4⟩]] =
      .ok [⟨"/x".data, 1⟩, ⟨"/a".data, 2⟩, ⟨"/a".data, 3⟩, ⟨"/b".data, 4⟩]
    ∧ (∃ res, overlayLsDetail
        [fun _ => LsOut.ok [⟨"/x".data, 1⟩, ⟨"/a".data, 2⟩],
          fun _ => LsOut.ok [⟨"/a".data, 3⟩, ⟨"/b".data, 4⟩]] "/".data = .ok res
      ∧ res.Pairwise (fun a b => strLe a.name b.name = true)
      ∧ (res.map (·.name)).Nodup
      ∧ (∀ n, res.find? (fun e => e.name = n) =
          (([⟨"/x".data, 1⟩, ⟨"/a".data, 2⟩, ⟨"/a".data, 3⟩,
            ⟨"/b".data, 4⟩] : List LsEntry).map normEntry).find?
            (fun e => e.name = n))) := by
  refine ⟨rfl, ?_⟩
  exact (c7_overlay_ls
    [fun _ => LsOut.ok [⟨"/x".data, 1⟩, ⟨"/a".data, 2⟩],
      fun _ => LsOut.ok [⟨"/a".data, 3⟩, ⟨"/b".data, 4⟩]] "/".data
    [⟨"/x".data, 1⟩, ⟨"/a".data, 2⟩, ⟨"/a".data, 3⟩, ⟨"/b".data, 4⟩]
    rfl).1

end Morefs
